import Mathlib

/-
  Verification of the Bit library (src/src/bit.c): a dense fixed-width bitset
  engine with byte and 64-bit word views over the same storage, pairwise set
  operations with popcount-only variants, a packed container (BitDB) of equal
  width bitsets, batched NxM count kernels (CPU and GPU), and an OpenMP
  device-residency protocol for the GPU path.

  The embedding models storage as a list of byte values (the C unsigned char
  buffer); the 64-bit word view (the qwords pointer aliasing the same memory,
  little-endian per the stable layout of the spec) is the derived function
  qwordAt.  Machine integers are Nat with explicit truncation where the C
  arithmetic can wrap.  Checked runtime errors (assert) are Except errors or
  explicit hypotheses.  Null pointer arguments of the binary set operations
  are modelled by Option-valued addresses into a heap, since the C code
  branches on pointer equality (s == t) and on NULL.
-/

namespace BitC

/-! ## Generic byte and word helpers -/

/-- Little-endian value of a list of bytes: byte 0 is least significant. -/
def bytesToNat : List Nat → Nat
  | [] => 0
  | b :: rest => b + 256 * bytesToNat rest

/-- Sum of f 0 + f 1 + ... + f (n-1), accumulated in ascending order as the
C counting loops do. -/
def sumTo (f : Nat → Nat) : Nat → Nat
  | 0 => 0
  | n + 1 => sumTo f n + f n

/-- Fuel-bounded binary population count; fuel x is always enough for x. -/
def popcountFuel : Nat → Nat → Nat
  | 0, _ => 0
  | fuel + 1, x => if x = 0 then 0 else x % 2 + popcountFuel fuel (x / 2)

/-- Number of 1 bits in the binary representation of x. -/
def popcount (x : Nat) : Nat := popcountFuel x x

theorem popcountFuel_zero (fuel : Nat) : popcountFuel fuel 0 = 0 := by
  cases fuel <;> simp [popcountFuel]

theorem popcountFuel_adequate : ∀ fuel gas x : Nat, x ≤ fuel → x ≤ gas →
    popcountFuel fuel x = popcountFuel gas x := by
  intro fuel
  induction fuel with
  | zero => intro gas x hf _; interval_cases x; simp [popcountFuel_zero]
  | succ f ih =>
    intro gas x hf hg
    rcases Nat.eq_zero_or_pos x with rfl | hx
    · simp [popcountFuel_zero]
    · obtain ⟨g, rfl⟩ : ∃ g, gas = g + 1 := ⟨gas - 1, by omega⟩
      simp only [popcountFuel, if_neg (by omega : ¬ x = 0)]
      rw [ih g (x / 2) (by omega) (by omega)]

theorem popcount_zero : popcount 0 = 0 := rfl

theorem popcount_eq_of_ne_zero (x : Nat) (hx : x ≠ 0) :
    popcount x = x % 2 + popcount (x / 2) := by
  obtain ⟨f, rfl⟩ : ∃ f, x = f + 1 := ⟨x - 1, by omega⟩
  show popcountFuel (f + 1) (f + 1) = _
  simp only [popcountFuel, if_neg hx]
  rw [popcountFuel_adequate f ((f + 1) / 2) ((f + 1) / 2) (by omega) (by omega)]
  rfl

theorem popcount_two_mul_add (x r : Nat) (hr : r < 2) :
    popcount (2 * x + r) = popcount x + r := by
  rcases Nat.eq_zero_or_pos (2 * x + r) with h0 | hpos
  · have hx : x = 0 := by omega
    have hr0 : r = 0 := by omega
    subst hx; subst hr0; simp [popcount_zero]
  · rw [popcount_eq_of_ne_zero _ (by omega)]
    have h1 : (2 * x + r) % 2 = r := by omega
    have h2 : (2 * x + r) / 2 = x := by omega
    rw [h1, h2]; omega

/-- Splitting off the low k bits: popcount is additive across the split. -/
theorem popcount_add_two_pow_mul : ∀ (k a x : Nat), a < 2 ^ k →
    popcount (a + 2 ^ k * x) = popcount a + popcount x := by
  intro k
  induction k with
  | zero => intro a x ha; interval_cases a; simp [popcount_zero]
  | succ k ih =>
    intro a x ha
    have h2 : 2 ^ (k + 1) = 2 * 2 ^ k := by rw [Nat.pow_succ]; ring
    have h2x : 2 ^ (k + 1) * x = 2 * (2 ^ k * x) := by rw [h2]; ring
    have hsplit : a + 2 ^ (k + 1) * x = 2 * (a / 2 + 2 ^ k * x) + a % 2 := by omega
    rw [hsplit, popcount_two_mul_add _ _ (by omega), ih (a / 2) x (by omega)]
    have ha' : popcount a = popcount (a / 2) + a % 2 := by
      have : a = 2 * (a / 2) + a % 2 := by omega
      conv_lhs => rw [this]
      exact popcount_two_mul_add _ _ (by omega)
    omega

theorem popcount_le_of_lt_two_pow : ∀ (k x : Nat), x < 2 ^ k → popcount x ≤ k := by
  intro k
  induction k with
  | zero => intro x hx; interval_cases x; simp [popcount_zero]
  | succ k ih =>
    intro x hx
    rcases Nat.eq_zero_or_pos x with rfl | hpos
    · simp [popcount_zero]
    · have hsplit : x = 2 * (x / 2) + x % 2 := by omega
      have h2 : 2 ^ (k + 1) = 2 * 2 ^ k := by rw [Nat.pow_succ]; ring
      calc popcount x = popcount (x / 2) + x % 2 := by
            conv_lhs => rw [hsplit]
            exact popcount_two_mul_add _ _ (by omega)
        _ ≤ k + 1 := by
            have := ih (x / 2) (by omega)
            omega

theorem popcount_eq_zero_iff (x : Nat) : popcount x = 0 ↔ x = 0 := by
  constructor
  · intro h
    induction x using Nat.strong_induction_on with
    | _ x ih =>
      by_contra hx
      rw [popcount_eq_of_ne_zero x hx] at h
      have hdiv : x / 2 = 0 := ih (x / 2) (by omega) (by omega)
      omega
  · rintro rfl; exact popcount_zero

/-! ## Bits of little-endian byte lists -/

theorem bytesToNat_lt : ∀ bs : List Nat, (∀ b ∈ bs, b < 256) →
    bytesToNat bs < 256 ^ bs.length := by
  intro bs
  induction bs with
  | nil => intro _; simp [bytesToNat]
  | cons b r ih =>
    intro h
    have hb : b < 256 := h b (by simp)
    have hr : bytesToNat r < 256 ^ r.length := ih (fun x hx => h x (by simp [hx]))
    have : 256 ^ (b :: r).length = 256 * 256 ^ r.length := by
      simp [List.length_cons, Nat.pow_succ]; ring
    rw [this]
    simp only [bytesToNat]
    omega

theorem testBit_bytesToNat : ∀ (bs : List Nat), (∀ b ∈ bs, b < 256) → ∀ j,
    (bytesToNat bs).testBit j = (bs.getD (j / 8) 0).testBit (j % 8) := by
  intro bs
  induction bs with
  | nil => intro _ j; simp [bytesToNat, List.getD]
  | cons b r ih =>
    intro h j
    have hb : b < 256 := h b (by simp)
    have hrw : bytesToNat (b :: r) = 2 ^ 8 * bytesToNat r + b := by
      simp only [bytesToNat]; ring
    rw [hrw, Nat.testBit_mul_pow_two_add _ (by exact hb)]
    by_cases hj : j < 8
    · have h0 : j / 8 = 0 := by omega
      have h1 : j % 8 = j := by omega
      simp [hj, h0, h1]
    · have h0 : j / 8 = (j - 8) / 8 + 1 := by omega
      have h1 : (j - 8) % 8 = j % 8 := by omega
      rw [if_neg hj, ih (fun x hx => h x (by simp [hx])) (j - 8), h0, h1]
      rfl

/-! ## A byte-peeling lemma for mask-and-shift steps

For a mask M whose byte pattern repeats with period 8 (within 64 bits) and
whose top s mask bits of each byte are clear, shifting right by s and masking
commutes with splitting off the low byte.  This is the engine behind the
per-byte analysis of the Wilks Wheeler Gill reduction. -/

theorem and_shiftRight_peel (s M a X : Nat) (ha : a < 256) (hX : X < 2 ^ 56)
    (hs : s < 8)
    (hper : ∀ j, j < 56 → M.testBit (j + 8) = M.testBit j)
    (hcross : ∀ j, 8 - s ≤ j → j < 8 → M.testBit j = false) :
    ((a + 256 * X) >>> s) &&& M = ((a >>> s) &&& M) + 256 * ((X >>> s) &&& M) := by
  have hlow : (a >>> s) &&& M < 2 ^ 8 := by
    have h1 : (a >>> s) &&& M ≤ a >>> s := Nat.and_le_left
    have h2 : a >>> s ≤ a := by
      rw [Nat.shiftRight_eq_div_pow]; exact Nat.div_le_self _ _
    calc (a >>> s) &&& M ≤ a := le_trans h1 h2
      _ < 2 ^ 8 := ha
  apply Nat.eq_of_testBit_eq
  intro j
  have hsum : ((a >>> s) &&& M) + 256 * ((X >>> s) &&& M)
      = 2 ^ 8 * ((X >>> s) &&& M) + ((a >>> s) &&& M) := by ring
  have hval : a + 256 * X = 2 ^ 8 * X + a := by ring
  rw [hsum, Nat.testBit_mul_pow_two_add _ hlow]
  by_cases hj : j < 8
  · rw [if_pos hj]
    simp only [Nat.testBit_and, Nat.testBit_shiftRight]
    rw [hval, Nat.testBit_mul_pow_two_add _ ha]
    by_cases hsj : s + j < 8
    · rw [if_pos hsj]
    · rw [if_neg hsj, hcross j (by omega) hj]
      simp
  · rw [if_neg hj]
    simp only [Nat.testBit_and, Nat.testBit_shiftRight]
    rw [hval, Nat.testBit_mul_pow_two_add _ ha, if_neg (by omega : ¬ s + j < 8)]
    have harg : s + j - 8 = s + (j - 8) := by omega
    rw [harg]
    by_cases hhi : s + (j - 8) < 56
    · have hM : M.testBit ((j - 8) + 8) = M.testBit (j - 8) := hper (j - 8) (by omega)
      have hj8 : (j - 8) + 8 = j := by omega
      rw [hj8] at hM
      rw [hM]
    · have hXb : X.testBit (s + (j - 8)) = false := by
        apply Nat.testBit_lt_two_pow
        calc X < 2 ^ 56 := hX
          _ ≤ 2 ^ (s + (j - 8)) := Nat.pow_le_pow_right (by omega) (by omega)
      rw [hXb]
      simp

/-- Specialization of the peel lemma to an unshifted mask application. -/
theorem and_peel0 (M a X : Nat) (ha : a < 256) (hX : X < 2 ^ 56)
    (hper : ∀ j, j < 56 → M.testBit (j + 8) = M.testBit j) :
    (a + 256 * X) &&& M = (a &&& M) + 256 * (X &&& M) := by
  have h := and_shiftRight_peel 0 M a X ha hX (by omega) hper (by omega)
  simpa using h

/-! ## The Wilks Wheeler Gill popcount (count_WWG in the source) -/

def C1_WWG : Nat := 0x5555555555555555

def C2_WWG : Nat := 0x3333333333333333

def C3_WWG : Nat := 0x0F0F0F0F0F0F0F0F

def C4_WWG : Nat := 0x0101010101010101

/-- First reduction step: x -= (x >> 1) & C1.  No underflow is possible. -/
def wwg1 (x : Nat) : Nat := x - ((x >>> 1) &&& C1_WWG)

/-- Second reduction step: x = ((x >> 2) & C2) + (x & C2). -/
def wwg2 (x : Nat) : Nat := ((x >>> 2) &&& C2_WWG) + (x &&& C2_WWG)

/-- Third reduction step: x = (x + (x >> 4)) & C3. -/
def wwg3 (x : Nat) : Nat := (x + (x >>> 4)) &&& C3_WWG

/-- The portable popcount of the source: the three bit-parallel reduction
steps, then multiply by C4 (this is where 64-bit multiplication wraps, hence
the explicit truncation) and take the top byte.  For inputs below 2^64 the
first three steps never reach 2^64, so they are not truncated. -/
def count_WWG (x : Nat) : Nat := ((wwg3 (wwg2 (wwg1 x)) * C4_WWG) % 2 ^ 64) >>> 56

theorem wwg1_peel (a X : Nat) (ha : a < 256) (hX : X < 2 ^ 56) :
    wwg1 (a + 256 * X) = wwg1 a + 256 * wwg1 X := by
  unfold wwg1
  rw [and_shiftRight_peel 1 C1_WWG a X ha hX (by omega) (by decide) (by decide)]
  have h1 : (a >>> 1) &&& C1_WWG ≤ a := by
    refine le_trans Nat.and_le_left ?_
    rw [Nat.shiftRight_eq_div_pow]; exact Nat.div_le_self _ _
  have h2 : (X >>> 1) &&& C1_WWG ≤ X := by
    refine le_trans Nat.and_le_left ?_
    rw [Nat.shiftRight_eq_div_pow]; exact Nat.div_le_self _ _
  omega

theorem wwg2_peel (a X : Nat) (ha : a < 256) (hX : X < 2 ^ 56) :
    wwg2 (a + 256 * X) = wwg2 a + 256 * wwg2 X := by
  unfold wwg2
  rw [and_shiftRight_peel 2 C2_WWG a X ha hX (by omega) (by decide) (by decide),
      and_peel0 C2_WWG a X ha hX (by decide)]
  ring

theorem and_C3_small (B : Nat) (hB : B < 256) : B &&& C3_WWG = B % 16 := by
  apply Nat.eq_of_testBit_eq
  intro j
  have h16 : (16 : Nat) = 2 ^ 4 := by norm_num
  rw [h16, Nat.testBit_mod_two_pow, Nat.testBit_and]
  by_cases h4 : j < 4
  · have hC : C3_WWG.testBit j = true := by interval_cases j <;> decide
    simp [hC, h4]
  · by_cases h8 : j < 8
    · have hC : C3_WWG.testBit j = false := by interval_cases j <;> decide
      simp [hC, h4]
    · have hB' : B.testBit j = false := by
        apply Nat.testBit_lt_two_pow
        calc B < 2 ^ 8 := hB
          _ ≤ 2 ^ j := Nat.pow_le_pow_right (by omega) (by omega)
      simp [hB', h4]

theorem wwg3_peel (c X : Nat) (hc : c < 256) (hc0 : c % 16 ≤ 4) (hc1 : c / 16 ≤ 4)
    (hX : X < 2 ^ 55) (hX0 : X % 16 ≤ 4) :
    wwg3 (c + 256 * X) = wwg3 c + 256 * wwg3 X := by
  unfold wwg3
  have hc68 : c ≤ 68 := by omega
  have hshift : (c + 256 * X) >>> 4 = c / 16 + 16 * X := by
    rw [Nat.shiftRight_eq_div_pow]
    have hform : c + 256 * X = c + 16 * (16 * X) := by ring
    have h16 : (2 : Nat) ^ 4 = 16 := by norm_num
    rw [h16, hform, Nat.add_mul_div_left _ _ (by norm_num)]
  have hcs : c >>> 4 = c / 16 := by
    rw [Nat.shiftRight_eq_div_pow]
  have hXs : X >>> 4 = X / 16 := by
    rw [Nat.shiftRight_eq_div_pow]
  have hregroup : (c + 256 * X) + ((c + 256 * X) >>> 4)
      = (c + c / 16 + 16 * (X % 16)) + 256 * (X + X / 16) := by
    rw [hshift]; omega
  rw [hregroup]
  have hB : c + c / 16 + 16 * (X % 16) < 256 := by omega
  have hY : X + X / 16 < 2 ^ 56 := by
    have h1 : X / 16 ≤ X := Nat.div_le_self _ _
    have h2 : (2 : Nat) ^ 55 + 2 ^ 55 ≤ 2 ^ 56 := by norm_num
    omega
  rw [and_peel0 C3_WWG _ _ hB hY (by decide)]
  rw [hcs, hXs]
  have hleft : (c + c / 16 + 16 * (X % 16)) &&& C3_WWG = (c + c / 16) &&& C3_WWG := by
    rw [and_C3_small _ hB, and_C3_small _ (by omega)]
    omega
  rw [hleft]

set_option maxRecDepth 10000

/-- Step 1 keeps byte values byte sized. -/
theorem wwg1_byte_lt : ∀ b, b < 256 → wwg1 b < 256 := by decide

/-- After steps 1 and 2 a byte holds two 4-bit field counts, each at most 4. -/
theorem wwg12_byte_bounds : ∀ b, b < 256 →
    wwg2 (wwg1 b) < 128 ∧ wwg2 (wwg1 b) % 16 ≤ 4 ∧ wwg2 (wwg1 b) / 16 ≤ 4 := by
  decide

/-- On a single byte the three reduction steps compute the popcount. -/
theorem wwg123_byte : ∀ b, b < 256 →
    wwg3 (wwg2 (wwg1 b)) = popcount b ∧ popcount b ≤ 8 := by decide

theorem bytesToNat_lt_two_pow_56 (bs : List Nat) (h : ∀ b ∈ bs, b < 256)
    (hlen : bs.length ≤ 7) : bytesToNat bs < 2 ^ 56 := by
  calc bytesToNat bs < 256 ^ bs.length := bytesToNat_lt bs h
    _ ≤ 256 ^ 7 := Nat.pow_le_pow_right (by norm_num) hlen
    _ = 2 ^ 56 := by norm_num

theorem two_mul_bytesToNat_lt : ∀ bs : List Nat, (∀ b ∈ bs, b < 128) →
    2 * bytesToNat bs < 256 ^ bs.length := by
  intro bs
  induction bs with
  | nil => intro _; simp [bytesToNat]
  | cons b r ih =>
    intro h
    have hb : b < 128 := h b (by simp)
    have hr := ih (fun x hx => h x (by simp [hx]))
    have hpow : 256 ^ (b :: r).length = 256 * 256 ^ r.length := by
      simp [List.length_cons, Nat.pow_succ]; ring
    rw [hpow]
    simp only [bytesToNat]
    omega

theorem wwg1_bytes : ∀ bs : List Nat, (∀ b ∈ bs, b < 256) → bs.length ≤ 8 →
    wwg1 (bytesToNat bs) = bytesToNat (bs.map wwg1) := by
  intro bs
  induction bs with
  | nil => intro _ _; decide
  | cons b r ih =>
    intro h hlen
    have hb : b < 256 := h b (by simp)
    have hR : bytesToNat r < 2 ^ 56 :=
      bytesToNat_lt_two_pow_56 r (fun x hx => h x (by simp [hx]))
        (by simp at hlen; omega)
    simp only [bytesToNat, List.map]
    rw [wwg1_peel b _ hb hR, ih (fun x hx => h x (by simp [hx])) (by simp at hlen; omega)]

theorem wwg2_bytes : ∀ bs : List Nat, (∀ b ∈ bs, b < 256) → bs.length ≤ 8 →
    wwg2 (bytesToNat bs) = bytesToNat (bs.map wwg2) := by
  intro bs
  induction bs with
  | nil => intro _ _; decide
  | cons b r ih =>
    intro h hlen
    have hb : b < 256 := h b (by simp)
    have hR : bytesToNat r < 2 ^ 56 :=
      bytesToNat_lt_two_pow_56 r (fun x hx => h x (by simp [hx]))
        (by simp at hlen; omega)
    simp only [bytesToNat, List.map]
    rw [wwg2_peel b _ hb hR, ih (fun x hx => h x (by simp [hx])) (by simp at hlen; omega)]

theorem wwg3_bytes : ∀ ds : List Nat,
    (∀ d ∈ ds, d < 128 ∧ d % 16 ≤ 4 ∧ d / 16 ≤ 4) → ds.length ≤ 8 →
    wwg3 (bytesToNat ds) = bytesToNat (ds.map wwg3) := by
  intro ds
  induction ds with
  | nil => intro _ _; decide
  | cons d r ih =>
    intro h hlen
    obtain ⟨hd, hd0, hd1⟩ := h d (by simp)
    have hmem : ∀ x ∈ r, x < 128 ∧ x % 16 ≤ 4 ∧ x / 16 ≤ 4 :=
      fun x hx => h x (by simp [hx])
    have hrlen : r.length ≤ 7 := by simp at hlen; omega
    have hR : bytesToNat r < 2 ^ 55 := by
      have h2 := two_mul_bytesToNat_lt r (fun x hx => (hmem x hx).1)
      have hpow : 256 ^ r.length ≤ 256 ^ 7 := Nat.pow_le_pow_right (by norm_num) hrlen
      have h256 : (256 : Nat) ^ 7 = 2 ^ 56 := by norm_num
      have h56 : (2 : Nat) ^ 56 = 2 * 2 ^ 55 := by norm_num
      omega
    have hR0 : bytesToNat r % 16 ≤ 4 := by
      cases r with
      | nil => simp [bytesToNat]
      | cons d' r' =>
        have := (hmem d' (by simp)).2.1
        simp only [bytesToNat]
        omega
    simp only [bytesToNat, List.map]
    rw [wwg3_peel d _ (by omega) hd0 hd1 hR hR0, ih hmem (by simp at hlen; omega)]

theorem wwg123_bytes (bs : List Nat) (h : ∀ b ∈ bs, b < 256) (hlen : bs.length ≤ 8) :
    wwg3 (wwg2 (wwg1 (bytesToNat bs)))
      = bytesToNat (bs.map (fun b => wwg3 (wwg2 (wwg1 b)))) := by
  rw [wwg1_bytes bs h hlen]
  rw [wwg2_bytes (bs.map wwg1)
    (by intro x hx; simp only [List.mem_map] at hx
        obtain ⟨b, hb, rfl⟩ := hx
        exact wwg1_byte_lt b (h b hb))
    (by simpa using hlen)]
  rw [wwg3_bytes ((bs.map wwg1).map wwg2)
    (by intro x hx
        simp only [List.map_map, List.mem_map] at hx
        obtain ⟨b, hb, rfl⟩ := hx
        exact wwg12_byte_bounds b (h b hb))
    (by simpa using hlen)]
  simp only [List.map_map]
  rfl

theorem popcount_bytesToNat : ∀ bs : List Nat, (∀ b ∈ bs, b < 256) →
    popcount (bytesToNat bs) = (bs.map popcount).sum := by
  intro bs
  induction bs with
  | nil => intro _; simp [bytesToNat, popcount_zero]
  | cons b r ih =>
    intro h
    have hb : b < 256 := h b (by simp)
    simp only [bytesToNat, List.map, List.sum_cons]
    have h256 : 256 * bytesToNat r = 2 ^ 8 * bytesToNat r := by norm_num
    rw [h256, popcount_add_two_pow_mul 8 b _ hb, ih (fun x hx => h x (by simp [hx]))]

/-- The final multiply-and-extract of count_WWG: for eight byte counts of at
most 8 each, the top byte of the truncated product with C4 is their sum. -/
theorem wwg_mul_extract (p0 p1 p2 p3 p4 p5 p6 p7 : Nat)
    (h0 : p0 ≤ 8) (h1 : p1 ≤ 8) (h2 : p2 ≤ 8) (h3 : p3 ≤ 8)
    (h4 : p4 ≤ 8) (h5 : p5 ≤ 8) (h6 : p6 ≤ 8) (h7 : p7 ≤ 8) :
    ((bytesToNat [p0, p1, p2, p3, p4, p5, p6, p7] * C4_WWG) % 2 ^ 64) >>> 56
      = p0 + p1 + p2 + p3 + p4 + p5 + p6 + p7 := by
  have hval : bytesToNat [p0, p1, p2, p3, p4, p5, p6, p7]
      = p0 + 256 * p1 + 256 ^ 2 * p2 + 256 ^ 3 * p3 + 256 ^ 4 * p4
        + 256 ^ 5 * p5 + 256 ^ 6 * p6 + 256 ^ 7 * p7 := by
    simp only [bytesToNat]; ring
  set S := p0 + p1 + p2 + p3 + p4 + p5 + p6 + p7 with hS
  set A := p0 * (1 + 256 + 256 ^ 2 + 256 ^ 3 + 256 ^ 4 + 256 ^ 5 + 256 ^ 6)
    + p1 * ((1 + 256 + 256 ^ 2 + 256 ^ 3 + 256 ^ 4 + 256 ^ 5) * 256)
    + p2 * ((1 + 256 + 256 ^ 2 + 256 ^ 3 + 256 ^ 4) * 256 ^ 2)
    + p3 * ((1 + 256 + 256 ^ 2 + 256 ^ 3) * 256 ^ 3)
    + p4 * ((1 + 256 + 256 ^ 2) * 256 ^ 4)
    + p5 * ((1 + 256) * 256 ^ 5)
    + p6 * (1 * 256 ^ 6) with hA
  set B := p1 * 1 + p2 * (1 + 256) + p3 * (1 + 256 + 256 ^ 2)
    + p4 * (1 + 256 + 256 ^ 2 + 256 ^ 3)
    + p5 * (1 + 256 + 256 ^ 2 + 256 ^ 3 + 256 ^ 4)
    + p6 * (1 + 256 + 256 ^ 2 + 256 ^ 3 + 256 ^ 4 + 256 ^ 5)
    + p7 * (1 + 256 + 256 ^ 2 + 256 ^ 3 + 256 ^ 4 + 256 ^ 5 + 256 ^ 6) with hB
  have hprod : bytesToNat [p0, p1, p2, p3, p4, p5, p6, p7] * C4_WWG
      = A + 2 ^ 56 * S + 2 ^ 64 * B := by
    rw [hval, hS, hA, hB]
    show _ * 0x0101010101010101 = _
    ring
  have hAlt : A < 2 ^ 56 := by
    rw [hA]; norm_num; omega
  have hSle : S ≤ 64 := by omega
  rw [hprod, Nat.shiftRight_eq_div_pow]
  have hmod : (A + 2 ^ 56 * S + 2 ^ 64 * B) % 2 ^ 64 = A + 2 ^ 56 * S := by
    rw [Nat.add_mul_mod_self_left]
    apply Nat.mod_eq_of_lt
    have : (2:Nat) ^ 56 * S ≤ 2 ^ 56 * 64 := Nat.mul_le_mul_left _ hSle
    have h2 : (2:Nat) ^ 56 * 64 = 2 ^ 62 := by norm_num
    have h3 : (2:Nat) ^ 56 + 2 ^ 62 < 2 ^ 64 := by norm_num
    omega
  rw [hmod]
  have hdiv : (A + 2 ^ 56 * S) / 2 ^ 56 = S := by
    rw [Nat.add_mul_div_left _ _ (by positivity), Nat.div_eq_of_lt hAlt]
    omega
  rw [hdiv]

/-- The little-endian byte view of a 64-bit word, as the C byte pointer
exposes it over the qword storage. -/
def wordToBytes (w : Nat) : List Nat :=
  [w &&& 255, (w >>> 8) &&& 255, (w >>> 16) &&& 255, (w >>> 24) &&& 255,
   (w >>> 32) &&& 255, (w >>> 40) &&& 255, (w >>> 48) &&& 255, (w >>> 56) &&& 255]

theorem wordToBytes_lt (w : Nat) : ∀ b ∈ wordToBytes w, b < 256 := by
  intro b hb
  simp only [wordToBytes, List.mem_cons, List.not_mem_nil, or_false] at hb
  rcases hb with rfl | rfl | rfl | rfl | rfl | rfl | rfl | rfl <;>
    exact lt_of_le_of_lt Nat.and_le_right (by norm_num)

theorem bytesToNat_wordToBytes (w : Nat) (hw : w < 2 ^ 64) :
    bytesToNat (wordToBytes w) = w := by
  have hmask : ∀ v : Nat, v &&& 255 = v % 256 := by
    intro v
    have : (255 : Nat) = 2 ^ 8 - 1 := by norm_num
    rw [this, Nat.and_pow_two_sub_one_eq_mod]
  simp only [wordToBytes, bytesToNat, hmask, Nat.shiftRight_eq_div_pow]
  norm_num
  omega

theorem count_WWG_eq_popcount (x : Nat) (hx : x < 2 ^ 64) :
    count_WWG x = popcount x := by
  unfold count_WWG
  have hxb : x = bytesToNat (wordToBytes x) := (bytesToNat_wordToBytes x hx).symm
  have hlen : (wordToBytes x).length = 8 := by simp [wordToBytes]
  conv_lhs => rw [hxb]
  rw [wwg123_bytes _ (wordToBytes_lt x) (by omega)]
  have hmap : (wordToBytes x).map (fun b => wwg3 (wwg2 (wwg1 b)))
      = (wordToBytes x).map popcount := by
    apply List.map_congr_left
    intro b hb
    exact (wwg123_byte b (wordToBytes_lt x b hb)).1
  rw [hmap]
  obtain ⟨b0, b1, b2, b3, b4, b5, b6, b7, hbs⟩ :
      ∃ b0 b1 b2 b3 b4 b5 b6 b7, wordToBytes x = [b0, b1, b2, b3, b4, b5, b6, b7] :=
    ⟨_, _, _, _, _, _, _, _, rfl⟩
  have hble : ∀ b ∈ wordToBytes x, popcount b ≤ 8 := by
    intro b hb
    exact (wwg123_byte b (wordToBytes_lt x b hb)).2
  rw [hbs]
  simp only [List.map]
  rw [wwg_mul_extract _ _ _ _ _ _ _ _
    (hble b0 (by rw [hbs]; simp)) (hble b1 (by rw [hbs]; simp))
    (hble b2 (by rw [hbs]; simp)) (hble b3 (by rw [hbs]; simp))
    (hble b4 (by rw [hbs]; simp)) (hble b5 (by rw [hbs]; simp))
    (hble b6 (by rw [hbs]; simp)) (hble b7 (by rw [hbs]; simp))]
  have hpop : popcount x = ((wordToBytes x).map popcount).sum := by
    conv_lhs => rw [hxb]
    exact popcount_bytesToNat _ (wordToBytes_lt x)
  rw [hpop, hbs]
  simp [List.sum_cons]
  omega

/-! ## Popcount identities for the binary set operators -/

theorem popcount_or_add_and : ∀ (n x y : Nat), x < 2 ^ n → y < 2 ^ n →
    popcount (x ||| y) + popcount (x &&& y) = popcount x + popcount y := by
  intro n
  induction n with
  | zero =>
    intro x y hx hy
    interval_cases x
    interval_cases y
    decide
  | succ n ih =>
    intro x y hx hy
    have hpow : 2 ^ (n + 1) = 2 * 2 ^ n := by rw [Nat.pow_succ]; ring
    have ihd := ih (x / 2) (y / 2) (by omega) (by omega)
    have e_or : popcount (x ||| y) = popcount (x / 2 ||| y / 2) + (x ||| y) % 2 := by
      conv_lhs => rw [show x ||| y = 2 * ((x ||| y) / 2) + (x ||| y) % 2 by omega]
      rw [popcount_two_mul_add _ _ (by omega), Nat.or_div_two]
    have e_and : popcount (x &&& y) = popcount (x / 2 &&& y / 2) + (x &&& y) % 2 := by
      conv_lhs => rw [show x &&& y = 2 * ((x &&& y) / 2) + (x &&& y) % 2 by omega]
      rw [popcount_two_mul_add _ _ (by omega), Nat.and_div_two]
    have e_x : popcount x = popcount (x / 2) + x % 2 := by
      conv_lhs => rw [show x = 2 * (x / 2) + x % 2 by omega]
      rw [popcount_two_mul_add _ _ (by omega)]
    have e_y : popcount y = popcount (y / 2) + y % 2 := by
      conv_lhs => rw [show y = 2 * (y / 2) + y % 2 by omega]
      rw [popcount_two_mul_add _ _ (by omega)]
    have ho := Nat.or_mod_two_eq_one (a := x) (b := y)
    have ha := Nat.and_mod_two_eq_one (a := x) (b := y)
    rcases Nat.mod_two_eq_zero_or_one x with hx0 | hx0 <;>
      rcases Nat.mod_two_eq_zero_or_one y with hy0 | hy0 <;>
      simp only [hx0, hy0] at ho ha <;>
      simp only [Nat.zero_ne_one, Nat.one_ne_zero, iff_true, iff_false, or_true,
        true_or, or_self, and_self, true_and, and_true, false_and, and_false,
        false_or, or_false, not_false_iff] at ho ha <;>
      omega

theorem popcount_xor_add_two_mul_and : ∀ (n x y : Nat), x < 2 ^ n → y < 2 ^ n →
    popcount (x ^^^ y) + 2 * popcount (x &&& y) = popcount x + popcount y := by
  intro n
  induction n with
  | zero =>
    intro x y hx hy
    interval_cases x
    interval_cases y
    decide
  | succ n ih =>
    intro x y hx hy
    have hpow : 2 ^ (n + 1) = 2 * 2 ^ n := by rw [Nat.pow_succ]; ring
    have ihd := ih (x / 2) (y / 2) (by omega) (by omega)
    have e_xor : popcount (x ^^^ y) = popcount (x / 2 ^^^ y / 2) + (x ^^^ y) % 2 := by
      conv_lhs => rw [show x ^^^ y = 2 * ((x ^^^ y) / 2) + (x ^^^ y) % 2 by omega]
      rw [popcount_two_mul_add _ _ (by omega), Nat.xor_div_two]
    have e_and : popcount (x &&& y) = popcount (x / 2 &&& y / 2) + (x &&& y) % 2 := by
      conv_lhs => rw [show x &&& y = 2 * ((x &&& y) / 2) + (x &&& y) % 2 by omega]
      rw [popcount_two_mul_add _ _ (by omega), Nat.and_div_two]
    have e_x : popcount x = popcount (x / 2) + x % 2 := by
      conv_lhs => rw [show x = 2 * (x / 2) + x % 2 by omega]
      rw [popcount_two_mul_add _ _ (by omega)]
    have e_y : popcount y = popcount (y / 2) + y % 2 := by
      conv_lhs => rw [show y = 2 * (y / 2) + y % 2 by omega]
      rw [popcount_two_mul_add _ _ (by omega)]
    have ho := Nat.xor_mod_two_eq_one (a := x) (b := y)
    have ha := Nat.and_mod_two_eq_one (a := x) (b := y)
    rcases Nat.mod_two_eq_zero_or_one x with hx0 | hx0 <;>
      rcases Nat.mod_two_eq_zero_or_one y with hy0 | hy0 <;>
      simp only [hx0, hy0] at ho ha <;>
      simp only [Nat.zero_ne_one, Nat.one_ne_zero, iff_true, iff_false, iff_self,
        or_true, true_or, or_self, and_self, true_and, and_true, false_and,
        and_false, false_or, or_false, not_true, not_false_iff] at ho ha <;>
      omega

theorem popcount_xor_eq_andn_add_andn : ∀ (n x y : Nat), x < 2 ^ n → y < 2 ^ n →
    popcount (x ^^^ y)
      = popcount (x &&& ((2 ^ n - 1) ^^^ y)) + popcount (y &&& ((2 ^ n - 1) ^^^ x)) := by
  intro n
  induction n with
  | zero =>
    intro x y hx hy
    interval_cases x
    interval_cases y
    decide
  | succ n ih =>
    intro x y hx hy
    have hpow : 2 ^ (n + 1) = 2 * 2 ^ n := by rw [Nat.pow_succ]; ring
    have hhalf : (2 ^ (n + 1) - 1) / 2 = 2 ^ n - 1 := by omega
    have hodd : (2 ^ (n + 1) - 1) % 2 = 1 := by omega
    have ihd := ih (x / 2) (y / 2) (by omega) (by omega)
    have e_xor : popcount (x ^^^ y) = popcount (x / 2 ^^^ y / 2) + (x ^^^ y) % 2 := by
      conv_lhs => rw [show x ^^^ y = 2 * ((x ^^^ y) / 2) + (x ^^^ y) % 2 by omega]
      rw [popcount_two_mul_add _ _ (by omega), Nat.xor_div_two]
    have e_t : popcount (x &&& ((2 ^ (n + 1) - 1) ^^^ y))
        = popcount (x / 2 &&& ((2 ^ n - 1) ^^^ y / 2))
          + (x &&& ((2 ^ (n + 1) - 1) ^^^ y)) % 2 := by
      conv_lhs =>
        rw [show x &&& ((2 ^ (n + 1) - 1) ^^^ y)
          = 2 * ((x &&& ((2 ^ (n + 1) - 1) ^^^ y)) / 2)
            + (x &&& ((2 ^ (n + 1) - 1) ^^^ y)) % 2 by omega]
      rw [popcount_two_mul_add _ _ (by omega), Nat.and_div_two, Nat.xor_div_two, hhalf]
    have e_s : popcount (y &&& ((2 ^ (n + 1) - 1) ^^^ x))
        = popcount (y / 2 &&& ((2 ^ n - 1) ^^^ x / 2))
          + (y &&& ((2 ^ (n + 1) - 1) ^^^ x)) % 2 := by
      conv_lhs =>
        rw [show y &&& ((2 ^ (n + 1) - 1) ^^^ x)
          = 2 * ((y &&& ((2 ^ (n + 1) - 1) ^^^ x)) / 2)
            + (y &&& ((2 ^ (n + 1) - 1) ^^^ x)) % 2 by omega]
      rw [popcount_two_mul_add _ _ (by omega), Nat.and_div_two, Nat.xor_div_two, hhalf]
    have hxor := Nat.xor_mod_two_eq_one (a := x) (b := y)
    have ht1 := Nat.and_mod_two_eq_one (a := x) (b := (2 ^ (n + 1) - 1) ^^^ y)
    have ht2 := Nat.xor_mod_two_eq_one (a := 2 ^ (n + 1) - 1) (b := y)
    have hs1 := Nat.and_mod_two_eq_one (a := y) (b := (2 ^ (n + 1) - 1) ^^^ x)
    have hs2 := Nat.xor_mod_two_eq_one (a := 2 ^ (n + 1) - 1) (b := x)
    rcases Nat.mod_two_eq_zero_or_one x with hx0 | hx0 <;>
      rcases Nat.mod_two_eq_zero_or_one y with hy0 | hy0 <;>
      simp only [hx0, hy0, hodd] at hxor ht1 ht2 hs1 hs2 <;>
      simp only [Nat.zero_ne_one, Nat.one_ne_zero, iff_true, iff_false, iff_self,
        or_true, true_or, or_self, and_self, true_and, and_true, false_and,
        and_false, false_or, or_false, not_true, not_false_iff,
        not_false_eq_true, not_true_eq_false] at hxor ht1 ht2 hs1 hs2 <;>
      omega

/-! ## Summation helpers for the counting loops -/

theorem sumTo_add (f g : Nat → Nat) : ∀ n,
    sumTo (fun i => f i + g i) n = sumTo f n + sumTo g n := by
  intro n
  induction n with
  | zero => rfl
  | succ n ih => simp only [sumTo, ih]; ring

theorem sumTo_congr (f g : Nat → Nat) : ∀ n, (∀ i, i < n → f i = g i) →
    sumTo f n = sumTo g n := by
  intro n
  induction n with
  | zero => intro _; rfl
  | succ n ih =>
    intro h
    simp only [sumTo]
    rw [ih (fun i hi => h i (by omega)), h n (by omega)]

theorem sumTo_eq_zero_iff (f : Nat → Nat) : ∀ n,
    (sumTo f n = 0 ↔ ∀ i, i < n → f i = 0) := by
  intro n
  induction n with
  | zero => simp [sumTo]
  | succ n ih =>
    simp only [sumTo, Nat.add_eq_zero]
    constructor
    · rintro ⟨h1, h2⟩ i hi
      rcases Nat.lt_or_ge i n with h | h
      · exact ih.mp h1 i h
      · have : i = n := by omega
        subst this; exact h2
    · intro h
      exact ⟨ih.mpr (fun i hi => h i (by omega)), h n (by omega)⟩

/-! ## List indexing helpers for the byte stores and memcpy operations -/

theorem getD_set : ∀ (l : List Nat) (i j v : Nat),
    ((l.set i v).getD j 0) = if i = j ∧ j < l.length then v else l.getD j 0 := by
  intro l
  induction l with
  | nil => intro i j v; simp
  | cons a l ih =>
    intro i j v
    cases i with
    | zero =>
      cases j with
      | zero => simp
      | succ j => simp
    | succ i =>
      cases j with
      | zero => simp
      | succ j =>
        simp only [List.set_cons_succ, List.getD_cons_succ, List.length_cons, ih]
        by_cases h : i = j ∧ j < l.length
        · rw [if_pos h, if_pos (by omega)]
        · rw [if_neg h, if_neg (by omega)]

theorem getD_append : ∀ (l1 l2 : List Nat) (j : Nat),
    (l1 ++ l2).getD j 0 = if j < l1.length then l1.getD j 0 else l2.getD (j - l1.length) 0 := by
  intro l1
  induction l1 with
  | nil => intro l2 j; simp
  | cons a l ih =>
    intro l2 j
    cases j with
    | zero => simp
    | succ j =>
      simp only [List.cons_append, List.getD_cons_succ, List.length_cons, ih]
      by_cases h : j < l.length
      · rw [if_pos h, if_pos (by omega)]
      · rw [if_neg h, if_neg (by omega)]
        congr 1
        omega

theorem getD_take : ∀ (l : List Nat) (n j : Nat),
    (l.take n).getD j 0 = if j < n then l.getD j 0 else 0 := by
  intro l
  induction l with
  | nil => intro n j; simp
  | cons a l ih =>
    intro n j
    cases n with
    | zero => simp
    | succ n =>
      cases j with
      | zero => simp
      | succ j =>
        simp only [List.take_succ_cons, List.getD_cons_succ, ih]
        by_cases h : j < n
        · rw [if_pos h, if_pos (by omega)]
        · rw [if_neg h, if_neg (by omega)]

theorem getD_drop : ∀ (l : List Nat) (n j : Nat),
    (l.drop n).getD j 0 = l.getD (n + j) 0 := by
  intro l
  induction l with
  | nil => intro n j; simp
  | cons a l ih =>
    intro n j
    cases n with
    | zero => simp
    | succ n =>
      simp only [List.drop_succ_cons, ih]
      have : n + 1 + j = (n + j) + 1 := by omega
      rw [this, List.getD_cons_succ]

theorem getD_replicate : ∀ (n j : Nat), (List.replicate n (0 : Nat)).getD j 0 = 0 := by
  intro n
  induction n with
  | zero => intro j; simp
  | succ n ih =>
    intro j
    cases j with
    | zero => simp [List.replicate]
    | succ j => simp [List.replicate, ih]

theorem getD_map_range (f : Nat → Nat) : ∀ (n j : Nat),
    ((List.range n).map f).getD j 0 = if j < n then f j else 0 := by
  intro n
  induction n with
  | zero => intro j; simp
  | succ n ih =>
    intro j
    rw [List.range_succ, List.map_append, getD_append]
    simp only [List.length_map, List.length_range, List.map_cons, List.map_nil]
    by_cases h : j < n
    · rw [if_pos h, ih, if_pos h, if_pos (by omega)]
    · rw [if_neg h]
      by_cases h2 : j = n
      · subst h2
        simp [if_pos (by omega : j < j + 1)]
      · rw [if_neg (by omega)]
        have : j - n ≠ 0 := by omega
        cases hd : j - n with
        | zero => omega
        | succ k => simp [List.getD]

/-- memcpy(dst + off, src, src.length) over a byte list. -/
def splice (dst : List Nat) (off : Nat) (src : List Nat) : List Nat :=
  dst.take off ++ src ++ dst.drop (off + src.length)

theorem length_splice (dst : List Nat) (off : Nat) (src : List Nat)
    (h : off + src.length ≤ dst.length) : (splice dst off src).length = dst.length := by
  simp [splice]
  omega

theorem getD_splice (dst : List Nat) (off : Nat) (src : List Nat) (j : Nat)
    (h : off + src.length ≤ dst.length) :
    (splice dst off src).getD j 0
      = if off ≤ j ∧ j < off + src.length then src.getD (j - off) 0 else dst.getD j 0 := by
  have hoff : off ≤ dst.length := by omega
  unfold splice
  rw [getD_append, getD_append, getD_take, getD_drop]
  simp only [List.length_append, List.length_take, Nat.min_eq_left hoff]
  split_ifs <;> first
    | rfl
    | omega
    | (congr 1; omega)

/-- The filling loop of Bit_set and Bit_clear: starting at byte index i,
store the constant v into cnt consecutive bytes. -/
def fillBytes (v : Nat) : Nat → List Nat → Nat → List Nat
  | 0, l, _ => l
  | cnt + 1, l, i => fillBytes v cnt (l.set i v) (i + 1)

theorem length_fillBytes (v : Nat) : ∀ (cnt : Nat) (l : List Nat) (i : Nat),
    (fillBytes v cnt l i).length = l.length := by
  intro cnt
  induction cnt with
  | zero => intro l i; rfl
  | succ cnt ih =>
    intro l i
    simp only [fillBytes, ih, List.length_set]

theorem getD_fillBytes (v : Nat) : ∀ (cnt : Nat) (l : List Nat) (i j : Nat),
    (fillBytes v cnt l i).getD j 0
      = if i ≤ j ∧ j < i + cnt ∧ j < l.length then v else l.getD j 0 := by
  intro cnt
  induction cnt with
  | zero =>
    intro l i j
    rw [show fillBytes v 0 l i = l from rfl, if_neg (by omega)]
  | succ cnt ih =>
    intro l i j
    simp only [fillBytes]
    rw [ih]
    simp only [List.length_set, getD_set]
    split_ifs <;> first
      | rfl
      | omega

/-- The complement loop of Bit_not: bytes[i] = ~bytes[i] (truncated to the
unsigned char store) for cnt consecutive bytes. -/
def complementBytes : Nat → List Nat → Nat → List Nat
  | 0, l, _ => l
  | cnt + 1, l, i => complementBytes cnt (l.set i (255 ^^^ l.getD i 0)) (i + 1)

theorem length_complementBytes : ∀ (cnt : Nat) (l : List Nat) (i : Nat),
    (complementBytes cnt l i).length = l.length := by
  intro cnt
  induction cnt with
  | zero => intro l i; rfl
  | succ cnt ih =>
    intro l i
    simp only [complementBytes, ih, List.length_set]

theorem getD_complementBytes : ∀ (cnt : Nat) (l : List Nat) (i j : Nat),
    (complementBytes cnt l i).getD j 0
      = if i ≤ j ∧ j < i + cnt ∧ j < l.length then 255 ^^^ l.getD j 0 else l.getD j 0 := by
  intro cnt
  induction cnt with
  | zero =>
    intro l i j
    rw [show complementBytes 0 l i = l from rfl, if_neg (by omega)]
  | succ cnt ih =>
    intro l i j
    simp only [complementBytes]
    rw [ih]
    simp only [List.length_set, getD_set]
    split_ifs <;> first
      | rfl
      | omega
      | simp_all

/-! ## The bitset data model (struct Bit_T of the source) -/

def INT_MAX_C : Nat := 2147483647

/-- nqwords(len) of the source: (((len) + BPQW - 1) & (~(BPQW - 1))) / BPQW,
with BPQW = 64 and the complement taken at the size_t width, so the mask is
2^64 - 64. -/
def nqwords (len : Nat) : Nat := ((len + 63) &&& (2 ^ 64 - 64)) / 64

theorem and_mask_high (x : Nat) (hx : x < 2 ^ 64) :
    x &&& (2 ^ 64 - 64) = 64 * (x / 64) := by
  have hmask : (2 : Nat) ^ 64 - 64 = 2 ^ 6 * (2 ^ 58 - 1) + 0 := by norm_num
  have hx64 : 64 * (x / 64) = 2 ^ 6 * (x / 64) + 0 := by norm_num
  apply Nat.eq_of_testBit_eq
  intro j
  rw [Nat.testBit_and, hmask, hx64, Nat.testBit_mul_pow_two_add _ (by norm_num),
      Nat.testBit_mul_pow_two_add _ (by norm_num)]
  by_cases h6 : j < 6
  · simp [h6, Nat.testBit_lt_two_pow]
  · rw [if_neg h6, if_neg h6, Nat.testBit_two_pow_sub_one]
    have hdiv : x / 64 = x >>> 6 := by
      rw [Nat.shiftRight_eq_div_pow]
    rw [hdiv, Nat.testBit_shiftRight]
    by_cases h64 : j < 64
    · have : 6 + (j - 6) = j := by omega
      rw [this]
      simp [show j - 6 < 58 by omega]
    · have hxb : x.testBit j = false := by
        apply Nat.testBit_lt_two_pow
        calc x < 2 ^ 64 := hx
          _ ≤ 2 ^ j := Nat.pow_le_pow_right (by omega) (by omega)
      have hj : 6 + (j - 6) = j := by omega
      rw [hj]
      simp [hxb]

theorem nqwords_eq (len : Nat) (h : len < INT_MAX_C) : nqwords len = (len + 63) / 64 := by
  unfold nqwords
  rw [and_mask_high (len + 63) (by unfold INT_MAX_C at h; omega),
      Nat.mul_div_cancel_left _ (by norm_num)]

structure Bit where
  length : Nat
  size_in_bytes : Nat
  size_in_qwords : Nat
  is_Bit_T_allocated : Bool
  bytes : List Nat
deriving DecidableEq

/-- Well-formed bitset: the cached sizes agree with nqwords, the storage has
exactly that many bytes, every byte is a byte value, and the length passed
the asserts of Bit_new / Bit_load. -/
def Bit.WF (s : Bit) : Prop :=
  s.size_in_qwords = nqwords s.length ∧
  s.size_in_bytes = s.size_in_qwords * 8 ∧
  s.bytes.length = s.size_in_bytes ∧
  (∀ b ∈ s.bytes, b < 256) ∧
  0 < s.length ∧ s.length < INT_MAX_C

instance (s : Bit) : Decidable s.WF := by
  unfold Bit.WF
  infer_instance

/-- The aliased 64-bit word view of the byte storage: word k reads the eight
bytes starting at byte offset 8k, little-endian. -/
def qwordAt (bytes : List Nat) (k : Nat) : Nat := bytesToNat ((bytes.drop (8 * k)).take 8)

/-- Byte-level bit read, as Bit_get does it: (bytes[i / 8] >> (i % 8)) & 1. -/
def bitAt (bytes : List Nat) (i : Nat) : Nat := (bytes.getD (i / 8) 0 >>> (i % 8)) &&& 1

/-- Padding invariant: every bit position at or above the bit length reads 0
(positions beyond the storage read 0 trivially). -/
def PaddingZero (len : Nat) (bytes : List Nat) : Prop :=
  ∀ p, len ≤ p → bitAt bytes p = 0

/-- Bounded version of the padding invariant, decidable for witnesses. -/
def PaddingZeroUpTo (len n : Nat) (bytes : List Nat) : Prop :=
  ∀ p, p < n → len ≤ p → bitAt bytes p = 0

instance (len n : Nat) (bytes : List Nat) : Decidable (PaddingZeroUpTo len n bytes) := by
  unfold PaddingZeroUpTo
  infer_instance

theorem bitAt_out_of_range (bytes : List Nat) (p : Nat)
    (h : bytes.length ≤ p / 8) : bitAt bytes p = 0 := by
  unfold bitAt
  rw [List.getD_eq_getElem?_getD, List.getElem?_eq_none (by omega)]
  simp

theorem paddingZero_of_upTo (len : Nat) (bytes : List Nat)
    (h : PaddingZeroUpTo len (8 * bytes.length) bytes) : PaddingZero len bytes := by
  intro p hp
  by_cases hb : p < 8 * bytes.length
  · exact h p hb hp
  · exact bitAt_out_of_range bytes p (by omega)

/-- The msbmask table of the source. -/
def msbmask : List Nat := [0xFF, 0xFE, 0xFC, 0xF8, 0xF0, 0xE0, 0xC0, 0x80]

/-- The lsbmask table of the source. -/
def lsbmask : List Nat := [0x01, 0x03, 0x07, 0x0F, 0x1F, 0x3F, 0x7F, 0xFF]

/-- Bit_new: calloc a zeroed buffer of nqwords(length) words.  The asserts
0 < length < INT_MAX become hypotheses of the theorems about it. -/
def Bit_new (length : Nat) : Bit :=
  { length := length
    size_in_qwords := nqwords length
    size_in_bytes := nqwords length * 8
    is_Bit_T_allocated := true
    bytes := List.replicate (nqwords length * 8) 0 }

/-- Bit_load: adopt a caller buffer without owning it. -/
def Bit_load (length : Nat) (buffer : List Nat) : Bit :=
  { length := length
    size_in_qwords := nqwords length
    size_in_bytes := nqwords length * 8
    is_Bit_T_allocated := false
    bytes := buffer }

/-- Bit_free takes the handle by reference (here: its current value, none
standing for a NULL handle).  It asserts the handle is non-null, releases
the word buffer only when the ownership flag says the library allocated it,
frees the struct and nulls the caller handle.  The Bool of the result
records whether the bit storage was released (the C function returns the
original buffer location in that case, NULL otherwise). -/
def Bit_free (handle : Option Bit) : Except String (Option Bit × Bool) :=
  match handle with
  | none => .error "assert(set && *set) failed"
  | some b => .ok (none, b.is_Bit_T_allocated)

/-- Bit_extract: memcpy(buffer, set->bytes, set->size_in_bytes) and return
set->size_in_bytes.  The result is the updated caller buffer and the count. -/
def Bit_extract (set : Bit) (buffer : List Nat) : List Nat × Nat :=
  (splice buffer 0 (set.bytes.take set.size_in_bytes), set.size_in_bytes)

def Bit_length (set : Bit) : Nat := set.length

/-- Bit_buffer_size: nqwords(length) * BPQW / BPB. -/
def Bit_buffer_size (length : Nat) : Nat := nqwords length * 8

/-- Bit_count: sum of POPCOUNT over the nqwords(set->length) stored words. -/
def Bit_count (set : Bit) : Nat :=
  sumTo (fun i => count_WWG (qwordAt set.bytes i)) (nqwords set.length)

/-- bytes[q] |= m -/
def orByte (l : List Nat) (q m : Nat) : List Nat := l.set q (l.getD q 0 ||| m)

/-- bytes[q] &= m -/
def andByte (l : List Nat) (q m : Nat) : List Nat := l.set q (l.getD q 0 &&& m)

/-- bytes[q] ^= m -/
def xorByte (l : List Nat) (q m : Nat) : List Nat := l.set q (l.getD q 0 ^^^ m)

/-- Bit_bset: bytes[index / 8] |= 1 << (index % 8). -/
def Bit_bset (set : Bit) (index : Nat) : Bit :=
  { set with bytes := orByte set.bytes (index / 8) (1 <<< (index % 8)) }

/-- Bit_bclear: bytes[index / 8] &= ~(1 << (index % 8)); the complement is
written at byte width since the store truncates to unsigned char. -/
def Bit_bclear (set : Bit) (index : Nat) : Bit :=
  { set with bytes := andByte set.bytes (index / 8) (255 ^^^ (1 <<< (index % 8))) }

/-- Bit_aset: apply the bset store for each listed index in order. -/
def Bit_aset (set : Bit) (indices : List Nat) : Bit :=
  indices.foldl Bit_bset set

/-- Bit_aclear: apply the bclear store for each listed index in order. -/
def Bit_aclear (set : Bit) (indices : List Nat) : Bit :=
  indices.foldl Bit_bclear set

/-- Bit_get: (bytes[index / 8] >> (index % 8)) & 1. -/
def Bit_get (set : Bit) (index : Nat) : Nat := bitAt set.bytes index

/-- Bit_put: read the previous bit, then store the new one; returns the
updated set and the previous bit. -/
def Bit_put (set : Bit) (index bit : Nat) : Bit × Nat :=
  let prev := (set.bytes.getD (index / 8) 0 >>> (index % 8)) &&& 1
  if bit = 1 then
    ({ set with bytes := orByte set.bytes (index / 8) (1 <<< (index % 8)) }, prev)
  else
    ({ set with bytes := andByte set.bytes (index / 8) (255 ^^^ (1 <<< (index % 8))) }, prev)

/-- Bit_set on the inclusive range [lo, hi]: boundary-mask both end bytes
and fill the bytes between with 0xFF (the two-byte-case split of the C). -/
def Bit_set (set : Bit) (lo hi : Nat) : Bit :=
  if lo / 8 < hi / 8 then
    { set with
        bytes := fillBytes 0xFF (hi / 8 - (lo / 8 + 1))
          (orByte (orByte set.bytes (lo / 8) (msbmask.getD (lo % 8) 0))
            (hi / 8) (lsbmask.getD (hi % 8) 0))
          (lo / 8 + 1) }
  else
    { set with
        bytes := orByte set.bytes (lo / 8)
          (msbmask.getD (lo % 8) 0 &&& lsbmask.getD (hi % 8) 0) }

/-- Bit_clear on [lo, hi]: clear with complemented boundary masks, zero the
bytes between. -/
def Bit_clear (set : Bit) (lo hi : Nat) : Bit :=
  if lo / 8 < hi / 8 then
    { set with
        bytes := fillBytes 0 (hi / 8 - (lo / 8 + 1))
          (andByte (andByte set.bytes (lo / 8) (255 ^^^ msbmask.getD (lo % 8) 0))
            (hi / 8) (255 ^^^ lsbmask.getD (hi % 8) 0))
          (lo / 8 + 1) }
  else
    { set with
        bytes := andByte set.bytes (lo / 8)
          (255 ^^^ (msbmask.getD (lo % 8) 0 &&& lsbmask.getD (hi % 8) 0)) }

/-- Bit_not on [lo, hi]: xor the boundary masks, complement the bytes
between. -/
def Bit_not (set : Bit) (lo hi : Nat) : Bit :=
  if lo / 8 < hi / 8 then
    { set with
        bytes := complementBytes (hi / 8 - (lo / 8 + 1))
          (xorByte (xorByte set.bytes (lo / 8) (msbmask.getD (lo % 8) 0))
            (hi / 8) (lsbmask.getD (hi % 8) 0))
          (lo / 8 + 1) }
  else
    { set with
        bytes := xorByte set.bytes (lo / 8)
          (msbmask.getD (lo % 8) 0 &&& lsbmask.getD (hi % 8) 0) }

/-- The C complement ~x at unsigned long long width. -/
def complement64 (x : Nat) : Nat := x ^^^ (2 ^ 64 - 1)

/-- The descending comparison loop of Bit_eq with its early return. -/
def Bit_eq_loop (s t : Bit) : Nat → Nat
  | 0 => 1
  | i + 1 =>
    if qwordAt s.bytes i ≠ qwordAt t.bytes i then 0
    else Bit_eq_loop s t i

def Bit_eq (s t : Bit) : Nat := Bit_eq_loop s t s.size_in_qwords

/-- The descending loop of Bit_leq: return 0 on the first word with a bit of
s missing from t. -/
def Bit_leq_loop (s t : Bit) : Nat → Nat
  | 0 => 1
  | i + 1 =>
    if (qwordAt s.bytes i &&& complement64 (qwordAt t.bytes i)) ≠ 0 then 0
    else Bit_leq_loop s t i

def Bit_leq (s t : Bit) : Nat := Bit_leq_loop s t s.size_in_qwords

/-- The descending loop of Bit_lt: early return 0 on a word of s not covered
by t, otherwise latch the flag when a common bit is seen. -/
def Bit_lt_loop (s t : Bit) : Nat → Nat → Nat
  | 0, acc => acc
  | i + 1, acc =>
    if (qwordAt s.bytes i &&& complement64 (qwordAt t.bytes i)) ≠ 0 then 0
    else Bit_lt_loop s t i (if (qwordAt s.bytes i &&& qwordAt t.bytes i) ≠ 0 then 1 else acc)

def Bit_lt (s t : Bit) : Nat := Bit_lt_loop s t s.size_in_qwords 0

/-! ## Binary set operations (the setop and setop_count macros)

The C functions take two pointers and branch on pointer equality and NULL,
so the model passes a heap and two optional addresses. -/

/-- The static copy helper: Bit_new of the same length, then memcpy of the
whole storage when the length is positive. -/
def copy (t : Bit) : Bit :=
  let fresh := Bit_new t.length
  if 0 < t.length then
    { fresh with bytes := splice fresh.bytes 0 (t.bytes.take t.size_in_bytes) }
  else fresh

/-- Little-endian byte image of a list of 64-bit words, as the word stores
of the setop loop leave them in the aliased byte buffer. -/
def wordsToBytes : List Nat → List Nat
  | [] => []
  | w :: ws => wordToBytes w ++ wordsToBytes ws

/-- The setop macro: the C branches first on pointer equality s == t (two
NULL pointers are equal, and the equal branch asserts s, so both absent is
a checked error), then on each operand being NULL; in the both-present
branch it allocates Bit_new(s->length) and stores the word-wise op results
through the word view. -/
def setop (heap : Nat → Bit) (s t : Option Nat)
    (sequal snull tnull : Bit → Bit) (op : Nat → Nat → Nat) : Except String Bit :=
  match s, t with
  | none, none => .error "assert(s) failed"
  | none, some b => .ok (snull (heap b))
  | some a, none => .ok (tnull (heap a))
  | some a, some b =>
    if a = b then .ok (sequal (heap a))
    else if (heap a).length = (heap b).length then
      .ok { Bit_new (heap a).length with
        bytes :=
          wordsToBytes ((List.range (heap a).size_in_qwords).map
            (fun i => op (qwordAt (heap a).bytes i) (qwordAt (heap b).bytes i)))
          ++ (Bit_new (heap a).length).bytes.drop (8 * (heap a).size_in_qwords) }
    else .error "assert(s->length == t->length) failed"

def Bit_diff (heap : Nat → Bit) (s t : Option Nat) : Except String Bit :=
  setop heap s t (fun s' => Bit_new s'.length) (fun t' => copy t') (fun s' => copy s')
    (fun a b => a ^^^ b)

def Bit_minus (heap : Nat → Bit) (s t : Option Nat) : Except String Bit :=
  setop heap s t (fun s' => Bit_new s'.length) (fun t' => Bit_new t'.length)
    (fun s' => copy s') (fun a b => a &&& complement64 b)

def Bit_inter (heap : Nat → Bit) (s t : Option Nat) : Except String Bit :=
  setop heap s t (fun s' => copy s') (fun t' => Bit_new t'.length)
    (fun s' => Bit_new s'.length) (fun a b => a &&& b)

def Bit_union (heap : Nat → Bit) (s t : Option Nat) : Except String Bit :=
  setop heap s t (fun s' => copy s') (fun t' => copy t') (fun s' => copy s')
    (fun a b => a ||| b)

/-- The word loop of the setop_count macro (portable POPCOUNT path). -/
def setop_count_words (sa tb : Bit) (op : Nat → Nat → Nat) : Nat :=
  sumTo (fun i => count_WWG (op (qwordAt sa.bytes i) (qwordAt tb.bytes i))) sa.size_in_qwords

/-- The setop_count macro. -/
def setop_count (heap : Nat → Bit) (s t : Option Nat)
    (sequal snull tnull : Bit → Nat) (op : Nat → Nat → Nat) : Except String Nat :=
  match s, t with
  | none, none => .error "assert(s) failed"
  | none, some b => .ok (snull (heap b))
  | some a, none => .ok (tnull (heap a))
  | some a, some b =>
    if a = b then .ok (sequal (heap a))
    else if (heap a).length = (heap b).length then
      .ok (setop_count_words (heap a) (heap b) op)
    else .error "assert(s->length == t->length) failed"

def Bit_diff_count (heap : Nat → Bit) (s t : Option Nat) : Except String Nat :=
  setop_count heap s t (fun _ => 0) (fun t' => Bit_count t') (fun s' => Bit_count s')
    (fun a b => a ^^^ b)

def Bit_minus_count (heap : Nat → Bit) (s t : Option Nat) : Except String Nat :=
  setop_count heap s t (fun _ => 0) (fun _ => 0) (fun s' => Bit_count s')
    (fun a b => a &&& complement64 b)

def Bit_inter_count (heap : Nat → Bit) (s t : Option Nat) : Except String Nat :=
  setop_count heap s t (fun s' => Bit_count s') (fun _ => 0) (fun _ => 0)
    (fun a b => a &&& b)

def Bit_union_count (heap : Nat → Bit) (s t : Option Nat) : Except String Nat :=
  setop_count heap s t (fun s' => Bit_count s') (fun t' => Bit_count t')
    (fun s' => Bit_count s') (fun a b => a ||| b)

/-! ## The packed container (struct Bit_T_DB of the source) -/

structure BitDB where
  nelem : Nat
  length : Nat
  size_in_bytes : Nat
  size_in_qwords : Nat
  is_Bit_T_allocated : Bool
  bytes : List Nat
deriving DecidableEq

/-- Well-formed container: per-slot sizes agree with nqwords, the storage is
one slot size times nelem, and the constructor asserts held. -/
def BitDB.WF (d : BitDB) : Prop :=
  d.size_in_qwords = nqwords d.length ∧
  d.size_in_bytes = d.size_in_qwords * 8 ∧
  d.bytes.length = d.size_in_bytes * d.nelem ∧
  (∀ b ∈ d.bytes, b < 256) ∧
  0 < d.length ∧ d.length < INT_MAX_C ∧
  0 < d.nelem ∧ d.nelem < INT_MAX_C

instance (d : BitDB) : Decidable d.WF := by
  unfold BitDB.WF
  infer_instance

/-- BitDB_new: calloc of size_in_bytes * num_of_bitsets zeroed bytes. -/
def BitDB_new (length num_of_bitsets : Nat) : BitDB :=
  { nelem := num_of_bitsets
    length := length
    size_in_qwords := nqwords length
    size_in_bytes := nqwords length * 8
    is_Bit_T_allocated := true
    bytes := List.replicate (nqwords length * 8 * num_of_bitsets) 0 }

def BitDB_length (set : BitDB) : Nat := set.length

def BitDB_nelem (set : BitDB) : Nat := set.nelem

/-- BitDB_clear_at: memset slot index to 0 at byte offset index * size_in_bytes. -/
def BitDB_clear_at (set : BitDB) (index : Nat) : Except String BitDB :=
  if index < set.nelem then
    .ok { set with
      bytes := splice set.bytes (index * set.size_in_bytes)
        (List.replicate set.size_in_bytes 0) }
  else .error "assert(index >= 0 && index < set->nelem) failed"

/-- BitDB_get_from: Bit_new(set->length), then memcpy the slot bytes out of
offset index * size_in_bytes. -/
def BitDB_get_from (set : BitDB) (index : Nat) : Except String Bit :=
  if index < set.nelem then
    let bitset := Bit_new set.length
    .ok { bitset with
      bytes := splice bitset.bytes 0
        ((set.bytes.drop (index * set.size_in_bytes)).take set.size_in_bytes) }
  else .error "assert(index >= 0 && index < set->nelem) failed"

/-- BitDB_put_at: memcpy the bitset bytes into the slot at byte offset
index * size_in_bytes; lengths must match. -/
def BitDB_put_at (set : BitDB) (index : Nat) (bitset : Bit) : Except String BitDB :=
  if index < set.nelem then
    if bitset.length = set.length then
      .ok { set with
        bytes := splice set.bytes (index * set.size_in_bytes)
          (bitset.bytes.take set.size_in_bytes) }
    else .error "assert(bitset->length == set->length) failed"
  else .error "assert(index >= 0 && index < set->nelem) failed"

/-- BitDB_extract_from: memcpy(buffer, set->bytes + index * size_in_bytes,
size_in_bytes) and return size_in_bytes. -/
def BitDB_extract_from (set : BitDB) (index : Nat) (buffer : List Nat) :
    Except String (List Nat × Nat) :=
  if index < set.nelem then
    .ok (splice buffer 0
      ((set.bytes.drop (index * set.size_in_bytes)).take set.size_in_bytes),
      set.size_in_bytes)
  else .error "assert(index >= 0 && index < set->nelem) failed"

/-- BitDB_replace_at: memcpy(set->bytes + index * size_in_bytes, buffer,
size_in_bytes). -/
def BitDB_replace_at (set : BitDB) (index : Nat) (buffer : List Nat) :
    Except String BitDB :=
  if index < set.nelem then
    .ok { set with
      bytes := splice set.bytes (index * set.size_in_bytes)
        (buffer.take set.size_in_bytes) }
  else .error "assert(index >= 0 && index < set->nelem) failed"

/-! ## Batched pairwise count kernels -/

/-- The options record consumed by the batched kernels. -/
structure SETOP_COUNT_OPTS where
  device_id : Nat
  num_cpu_threads : Int
  upd_1st_operand : Bool
  upd_2nd_operand : Bool
  release_1st_operand : Bool
  release_2nd_operand : Bool
  release_counts : Bool
deriving DecidableEq

/-- Cell (i, j) of the batched kernel: fold POPCOUNT of the word-wise op of
slot i of the first container against slot j of the second; both word
offsets use the first container's slot word count, as the C kernels do. -/
def setop_count_db_cell (bit bits : BitDB) (op : Nat → Nat → Nat) (i j : Nat) : Nat :=
  sumTo (fun k => count_WWG (op
    (qwordAt bit.bytes (i * bit.size_in_qwords + k))
    (qwordAt bits.bytes (j * bit.size_in_qwords + k)))) bit.size_in_qwords

/-- The full count matrix written by a batched call: cell (i, j) is stored at
counts[i * n + j]; bytes of the caller buffer past nelem * n cells are kept. -/
def setop_count_db_matrix (bit bits : BitDB) (counts : List Nat)
    (op : Nat → Nat → Nat) : List Nat :=
  ((List.range (bit.nelem * bits.nelem)).map
    (fun idx => setop_count_db_cell bit bits op (idx / bits.nelem) (idx % bits.nelem)))
    ++ counts.drop (bit.nelem * bits.nelem)

/-- setop_count_db_cpu: the checks, then each cell written exactly once.
The OpenMP collapse(2) guided worksharing only distributes iterations, so
the serial run and any thread count produce these same stores; the options
record only sizes the thread pool. -/
def setop_count_db_cpu (bit bits : BitDB) (counts : List Nat) (op : Nat → Nat → Nat)
    (opts : SETOP_COUNT_OPTS) : Except String (List Nat) :=
  if bit.length = bits.length then
    .ok (setop_count_db_matrix bit bits counts op)
  else .error "assert(bit->length == bits->length) failed"

/-! ## GPU residency model

The OpenMP device data environment keeps a dynamic reference count per host
buffer.  Mapping an absent buffer with target enter data allocates it, sets
the count to 1 and transfers host to device; entering a present buffer only
increments the count.  A target update to directive transfers without
touching the count.  target exit data map(from) decrements and, when the
count reaches zero, transfers device to host and deallocates; map(release)
decrements without a transfer.  A buffer is device resident while its count
is positive.  The state tracks the three buffers of one batched call. -/

structure GpuState where
  rc1st : Nat
  rc2nd : Nat
  rcCounts : Nat
deriving DecidableEq

inductive GpuEv where
  | h2d1st : GpuEv
  | h2d2nd : GpuEv
  | h2dCounts : GpuEv
  | d2hCounts : GpuEv
deriving DecidableEq

/-- SETOP_INIT_GPU: residency setup before the kernel.  For the first
operand: present and refresh requested means a target update (transfer, no
count change); present without refresh does nothing; absent means enter
data (count 1, transfer).  For the second operand the source differs: when
present without refresh it issues another target enter data, which
transfers nothing but increments the reference count.  The counts buffer is
entered only when absent. -/
def SETOP_INIT_GPU (opts : SETOP_COUNT_OPTS) (st : GpuState) : GpuState × List GpuEv :=
  let p1 :=
    if 0 < st.rc1st then
      (if opts.upd_1st_operand then (st.rc1st, [GpuEv.h2d1st]) else (st.rc1st, []))
    else (1, [GpuEv.h2d1st])
  let p2 :=
    if 0 < st.rc2nd then
      (if opts.upd_2nd_operand then (st.rc2nd, [GpuEv.h2d2nd]) else (st.rc2nd + 1, []))
    else (1, [GpuEv.h2d2nd])
  let pC :=
    if 0 < st.rcCounts then (st.rcCounts, ([] : List GpuEv))
    else (1, [GpuEv.h2dCounts])
  ({ rc1st := p1.1, rc2nd := p2.1, rcCounts := pC.1 }, p1.2 ++ p2.2 ++ pC.2)

/-- The unconditional target exit data map(from: counts) after the kernel:
decrement the count; on reaching zero copy the matrix back and deallocate.
Ignored when the buffer is not present. -/
def exitFromCounts (st : GpuState) : GpuState × List GpuEv :=
  if 0 < st.rcCounts then
    ({ st with rcCounts := st.rcCounts - 1 },
     if st.rcCounts = 1 then [GpuEv.d2hCounts] else [])
  else (st, [])

/-- setop_count_db_gpu: checks, residency setup, the teams/threads/SIMD
kernel (which computes the same cell values as the CPU kernel), the
unconditional copy-back of counts, then the three independent release
checks, each guarded by omp_target_is_present and performing an exit data
map(release), i.e. a decrement without transfer. -/
def setop_count_db_gpu (bit bits : BitDB) (counts : List Nat) (op : Nat → Nat → Nat)
    (opts : SETOP_COUNT_OPTS) (st : GpuState) :
    Except String (List Nat × GpuState × List GpuEv) :=
  if bit.length = bits.length then
    let init := SETOP_INIT_GPU opts st
    let counts' := setop_count_db_matrix bit bits counts op
    let fromC := exitFromCounts init.1
    let st2 := fromC.1
    let st3 :=
      if opts.release_1st_operand ∧ 0 < st2.rc1st then
        { st2 with rc1st := st2.rc1st - 1 } else st2
    let st4 :=
      if opts.release_2nd_operand ∧ 0 < st3.rc2nd then
        { st3 with rc2nd := st3.rc2nd - 1 } else st3
    let st5 :=
      if opts.release_counts ∧ 0 < st4.rcCounts then
        { st4 with rcCounts := st4.rcCounts - 1 } else st4
    .ok (counts', st5, init.2 ++ fromC.2)
  else .error "assert(bit->length == bits->length) failed"

/-! ## The sixteen public batched entry points.

The allocating variants calloc a zeroed nelem * nelem matrix and then call a
store variant; in the source the union, diff and minus allocating variants
all call the intersection store kernel. -/

def BitDB_inter_count_store_cpu (bit bits : BitDB) (counts : List Nat)
    (opts : SETOP_COUNT_OPTS) : Except String (List Nat) :=
  setop_count_db_cpu bit bits counts (fun a b => a &&& b) opts

def BitDB_inter_count_cpu (bit bits : BitDB) (opts : SETOP_COUNT_OPTS) :
    Except String (List Nat) :=
  BitDB_inter_count_store_cpu bit bits (List.replicate (bit.nelem * bits.nelem) 0) opts

def BitDB_inter_count_store_gpu (bit bits : BitDB) (counts : List Nat)
    (opts : SETOP_COUNT_OPTS) (st : GpuState) :
    Except String (List Nat × GpuState × List GpuEv) :=
  setop_count_db_gpu bit bits counts (fun a b => a &&& b) opts st

def BitDB_inter_count_gpu (bit bits : BitDB) (opts : SETOP_COUNT_OPTS) (st : GpuState) :
    Except String (List Nat × GpuState × List GpuEv) :=
  BitDB_inter_count_store_gpu bit bits (List.replicate (bit.nelem * bits.nelem) 0) opts st

def BitDB_union_count_store_cpu (bit bits : BitDB) (counts : List Nat)
    (opts : SETOP_COUNT_OPTS) : Except String (List Nat) :=
  setop_count_db_cpu bit bits counts (fun a b => a ||| b) opts

/-- BitDB_union_count_cpu of the source calls BitDB_inter_count_store_cpu on
the fresh matrix, not the union store kernel. -/
def BitDB_union_count_cpu (bit bits : BitDB) (opts : SETOP_COUNT_OPTS) :
    Except String (List Nat) :=
  BitDB_inter_count_store_cpu bit bits (List.replicate (bit.nelem * bits.nelem) 0) opts

def BitDB_union_count_store_gpu (bit bits : BitDB) (counts : List Nat)
    (opts : SETOP_COUNT_OPTS) (st : GpuState) :
    Except String (List Nat × GpuState × List GpuEv) :=
  setop_count_db_gpu bit bits counts (fun a b => a ||| b) opts st

/-- BitDB_union_count_gpu of the source calls BitDB_inter_count_store_gpu. -/
def BitDB_union_count_gpu (bit bits : BitDB) (opts : SETOP_COUNT_OPTS) (st : GpuState) :
    Except String (List Nat × GpuState × List GpuEv) :=
  BitDB_inter_count_store_gpu bit bits (List.replicate (bit.nelem * bits.nelem) 0) opts st

def BitDB_diff_count_store_cpu (bit bits : BitDB) (counts : List Nat)
    (opts : SETOP_COUNT_OPTS) : Except String (List Nat) :=
  setop_count_db_cpu bit bits counts (fun a b => a ^^^ b) opts

/-- BitDB_diff_count_cpu of the source calls BitDB_inter_count_store_cpu. -/
def BitDB_diff_count_cpu (bit bits : BitDB) (opts : SETOP_COUNT_OPTS) :
    Except String (List Nat) :=
  BitDB_inter_count_store_cpu bit bits (List.replicate (bit.nelem * bits.nelem) 0) opts

def BitDB_diff_count_store_gpu (bit bits : BitDB) (counts : List Nat)
    (opts : SETOP_COUNT_OPTS) (st : GpuState) :
    Except String (List Nat × GpuState × List GpuEv) :=
  setop_count_db_gpu bit bits counts (fun a b => a ^^^ b) opts st

/-- BitDB_diff_count_gpu of the source calls BitDB_inter_count_store_gpu. -/
def BitDB_diff_count_gpu (bit bits : BitDB) (opts : SETOP_COUNT_OPTS) (st : GpuState) :
    Except String (List Nat × GpuState × List GpuEv) :=
  BitDB_inter_count_store_gpu bit bits (List.replicate (bit.nelem * bits.nelem) 0) opts st

def BitDB_minus_count_store_cpu (bit bits : BitDB) (counts : List Nat)
    (opts : SETOP_COUNT_OPTS) : Except String (List Nat) :=
  setop_count_db_cpu bit bits counts (fun a b => a &&& complement64 b) opts

/-- BitDB_minus_count_cpu of the source calls BitDB_inter_count_store_cpu. -/
def BitDB_minus_count_cpu (bit bits : BitDB) (opts : SETOP_COUNT_OPTS) :
    Except String (List Nat) :=
  BitDB_inter_count_store_cpu bit bits (List.replicate (bit.nelem * bits.nelem) 0) opts

def BitDB_minus_count_store_gpu (bit bits : BitDB) (counts : List Nat)
    (opts : SETOP_COUNT_OPTS) (st : GpuState) :
    Except String (List Nat × GpuState × List GpuEv) :=
  setop_count_db_gpu bit bits counts (fun a b => a &&& complement64 b) opts st

/-- BitDB_minus_count_gpu of the source calls BitDB_inter_count_store_gpu. -/
def BitDB_minus_count_gpu (bit bits : BitDB) (opts : SETOP_COUNT_OPTS) (st : GpuState) :
    Except String (List Nat × GpuState × List GpuEv) :=
  BitDB_inter_count_store_gpu bit bits (List.replicate (bit.nelem * bits.nelem) 0) opts st

/-! ## Bridging the byte view, the word view and the padding invariant -/

theorem qwordAt_mem_lt (bytes : List Nat) (h : ∀ b ∈ bytes, b < 256) (k : Nat) :
    ∀ b ∈ (bytes.drop (8 * k)).take 8, b < 256 := by
  intro b hb
  exact h b (List.drop_subset _ _ (List.take_subset _ _ hb))

theorem qwordAt_lt (bytes : List Nat) (h : ∀ b ∈ bytes, b < 256) (k : Nat) :
    qwordAt bytes k < 2 ^ 64 := by
  unfold qwordAt
  have hlt := bytesToNat_lt _ (qwordAt_mem_lt bytes h k)
  have hlen : ((bytes.drop (8 * k)).take 8).length ≤ 8 := by
    simp [List.length_take]
  calc bytesToNat ((bytes.drop (8 * k)).take 8)
      < 256 ^ ((bytes.drop (8 * k)).take 8).length := hlt
    _ ≤ 256 ^ 8 := Nat.pow_le_pow_right (by norm_num) hlen
    _ = 2 ^ 64 := by norm_num

theorem testBit_qwordAt (bytes : List Nat) (h : ∀ b ∈ bytes, b < 256) (k m : Nat)
    (hm : m < 64) :
    (qwordAt bytes k).testBit m = (bytes.getD (8 * k + m / 8) 0).testBit (m % 8) := by
  unfold qwordAt
  rw [testBit_bytesToNat _ (qwordAt_mem_lt bytes h k) m, getD_take, if_pos (by omega),
      getD_drop]

theorem getD_nil_zero (j : Nat) : ([] : List Nat).getD j 0 = 0 := by
  cases j <;> rfl

theorem bitAt_eq_testBit (bytes : List Nat) (p : Nat) :
    bitAt bytes p = if (bytes.getD (p / 8) 0).testBit (p % 8) then 1 else 0 := by
  unfold bitAt
  rw [Nat.and_one_is_mod, Nat.shiftRight_eq_div_pow, Nat.testBit_to_div_mod]
  split_ifs with h
  · have := of_decide_eq_true h
    omega
  · have hne : ¬ (bytes.getD (p / 8) 0 / 2 ^ (p % 8) % 2 = 1) := by
      intro hc
      exact h (decide_eq_true hc)
    omega

theorem paddingZero_qword (len : Nat) (bytes : List Nat)
    (hb : ∀ b ∈ bytes, b < 256) (hp : PaddingZero len bytes) (k m : Nat) (hm : m < 64)
    (hlm : len ≤ 64 * k + m) : (qwordAt bytes k).testBit m = false := by
  rw [testBit_qwordAt bytes hb k m hm]
  have hz := hp (64 * k + m) hlm
  rw [bitAt_eq_testBit] at hz
  have hdiv : (64 * k + m) / 8 = 8 * k + m / 8 := by omega
  have hmod : (64 * k + m) % 8 = m % 8 := by omega
  rw [hdiv, hmod] at hz
  by_cases hbit : (bytes.getD (8 * k + m / 8) 0).testBit (m % 8)
  · rw [if_pos hbit] at hz; omega
  · exact Bool.eq_false_iff.mpr hbit

theorem length_wordToBytes (w : Nat) : (wordToBytes w).length = 8 := by
  simp [wordToBytes]

theorem length_wordsToBytes : ∀ ws : List Nat, (wordsToBytes ws).length = 8 * ws.length := by
  intro ws
  induction ws with
  | nil => rfl
  | cons w ws ih =>
    simp only [wordsToBytes, List.length_append, length_wordToBytes, ih,
      List.length_cons]
    ring

theorem wordsToBytes_mem_lt : ∀ ws : List Nat, ∀ b ∈ wordsToBytes ws, b < 256 := by
  intro ws
  induction ws with
  | nil => intro b hb; simp [wordsToBytes] at hb
  | cons w ws ih =>
    intro b hb
    simp only [wordsToBytes, List.mem_append] at hb
    rcases hb with hb | hb
    · exact wordToBytes_lt w b hb
    · exact ih b hb

theorem wordToBytes_zero_getD (j : Nat) : (wordToBytes 0).getD j 0 = 0 := by
  have h0 : wordToBytes 0 = [0, 0, 0, 0, 0, 0, 0, 0] := by decide
  rw [h0]
  match j with
  | 0 => rfl
  | 1 => rfl
  | 2 => rfl
  | 3 => rfl
  | 4 => rfl
  | 5 => rfl
  | 6 => rfl
  | 7 => rfl
  | n + 8 => simp [List.getD]

theorem getD_wordsToBytes : ∀ (ws : List Nat) (j : Nat),
    (wordsToBytes ws).getD j 0 = (wordToBytes (ws.getD (j / 8) 0)).getD (j % 8) 0 := by
  intro ws
  induction ws with
  | nil =>
    intro j
    show ([] : List Nat).getD j 0 = _
    rw [getD_nil_zero, getD_nil_zero, wordToBytes_zero_getD]
  | cons w ws ih =>
    intro j
    simp only [wordsToBytes]
    rw [getD_append, length_wordToBytes]
    by_cases hj : j < 8
    · rw [if_pos hj]
      have h0 : j / 8 = 0 := by omega
      have h1 : j % 8 = j := by omega
      rw [h0, h1]
      rfl
    · rw [if_neg hj, ih (j - 8)]
      have h0 : j / 8 = (j - 8) / 8 + 1 := by omega
      have h1 : (j - 8) % 8 = j % 8 := by omega
      rw [h0, h1]
      rfl

theorem testBit_wordToBytes (w r b : Nat) (hr : r < 8) (hb : b < 8) :
    ((wordToBytes w).getD r 0).testBit b = w.testBit (8 * r + b) := by
  have h255 : (255 : Nat) = 2 ^ 8 - 1 := by norm_num
  interval_cases r <;>
    simp only [wordToBytes, List.getD_cons_zero, List.getD_cons_succ] <;>
    rw [h255, Nat.testBit_and, Nat.testBit_two_pow_sub_one] <;>
    simp [Nat.testBit_shiftRight, hb]

/-- The central padding lemma for a freshly stored word list: bit p of the
byte image of ws is bit p % 64 of word p / 64. -/
theorem bitAt_wordsToBytes (ws : List Nat) (p : Nat) :
    bitAt (wordsToBytes ws) p
      = if (ws.getD (p / 64) 0).testBit (p % 64) then 1 else 0 := by
  rw [bitAt_eq_testBit, getD_wordsToBytes]
  have hr : (p / 8) % 8 < 8 := by omega
  have hb : p % 8 < 8 := by omega
  rw [testBit_wordToBytes _ _ _ hr hb]
  have h1 : (p / 8) / 8 = p / 64 := by omega
  have h2 : 8 * ((p / 8) % 8) + p % 8 = p % 64 := by omega
  rw [h1, h2]

/-! ## Padding preservation -/

theorem bitAt_zero_iff (bytes : List Nat) (p : Nat) :
    bitAt bytes p = 0 ↔ (bytes.getD (p / 8) 0).testBit (p % 8) = false := by
  rw [bitAt_eq_testBit]
  by_cases h : (bytes.getD (p / 8) 0).testBit (p % 8) <;> simp [h]

theorem msbmask_getD_testBit : ∀ k, k < 8 → ∀ b, b < 8 →
    (msbmask.getD k 0).testBit b = decide (k ≤ b) := by decide

theorem lsbmask_getD_testBit : ∀ k, k < 8 → ∀ b, b < 8 →
    (lsbmask.getD k 0).testBit b = decide (b ≤ k) := by decide

theorem paddingZero_orByte (L : Nat) (bytes : List Nat) (q m : Nat)
    (hp : PaddingZero L bytes)
    (hm : ∀ p, L ≤ p → p / 8 = q → m.testBit (p % 8) = false) :
    PaddingZero L (orByte bytes q m) := by
  intro p hLp
  have hold := (bitAt_zero_iff bytes p).mp (hp p hLp)
  rw [bitAt_zero_iff]
  unfold orByte
  rw [getD_set]
  split_ifs with h
  · have hq : (bytes.getD q 0).testBit (p % 8) = false := by rw [h.1]; exact hold
    rw [Nat.testBit_or, hq, hm p hLp h.1.symm]
    rfl
  · exact hold

theorem paddingZero_andByte (L : Nat) (bytes : List Nat) (q m : Nat)
    (hp : PaddingZero L bytes) :
    PaddingZero L (andByte bytes q m) := by
  intro p hLp
  have hold := (bitAt_zero_iff bytes p).mp (hp p hLp)
  rw [bitAt_zero_iff]
  unfold andByte
  rw [getD_set]
  split_ifs with h
  · have hq : (bytes.getD q 0).testBit (p % 8) = false := by rw [h.1]; exact hold
    rw [Nat.testBit_and, hq]
    rfl
  · exact hold

theorem paddingZero_xorByte (L : Nat) (bytes : List Nat) (q m : Nat)
    (hp : PaddingZero L bytes)
    (hm : ∀ p, L ≤ p → p / 8 = q → m.testBit (p % 8) = false) :
    PaddingZero L (xorByte bytes q m) := by
  intro p hLp
  have hold := (bitAt_zero_iff bytes p).mp (hp p hLp)
  rw [bitAt_zero_iff]
  unfold xorByte
  rw [getD_set]
  split_ifs with h
  · have hq : (bytes.getD q 0).testBit (p % 8) = false := by rw [h.1]; exact hold
    rw [Nat.testBit_xor, hq, hm p hLp h.1.symm]
    rfl
  · exact hold

theorem paddingZero_fillBytes (L : Nat) (bytes : List Nat) (v i cnt : Nat)
    (hp : PaddingZero L bytes)
    (hout : ∀ p, L ≤ p → ¬(i ≤ p / 8 ∧ p / 8 < i + cnt)) :
    PaddingZero L (fillBytes v cnt bytes i) := by
  intro p hLp
  have hold := (bitAt_zero_iff bytes p).mp (hp p hLp)
  rw [bitAt_zero_iff, getD_fillBytes,
      if_neg (by have := hout p hLp; intro hc; exact this ⟨hc.1, hc.2.1⟩)]
  exact hold

theorem paddingZero_complementBytes (L : Nat) (bytes : List Nat) (i cnt : Nat)
    (hp : PaddingZero L bytes)
    (hout : ∀ p, L ≤ p → ¬(i ≤ p / 8 ∧ p / 8 < i + cnt)) :
    PaddingZero L (complementBytes cnt bytes i) := by
  intro p hLp
  have hold := (bitAt_zero_iff bytes p).mp (hp p hLp)
  rw [bitAt_zero_iff, getD_complementBytes,
      if_neg (by have := hout p hLp; intro hc; exact this ⟨hc.1, hc.2.1⟩)]
  exact hold

theorem testBit_one_shiftLeft (k b : Nat) : (1 <<< k).testBit b = decide (k = b) := by
  rw [Nat.one_shiftLeft, Nat.testBit_two_pow]

theorem paddingZero_Bit_bset (s : Bit) (i : Nat) (hi : i < s.length)
    (hp : PaddingZero s.length s.bytes) :
    PaddingZero s.length (Bit_bset s i).bytes := by
  apply paddingZero_orByte _ _ _ _ hp
  intro p hLp hq
  rw [testBit_one_shiftLeft]
  simp only [decide_eq_false_iff_not]
  omega

theorem paddingZero_Bit_bclear (s : Bit) (i : Nat)
    (hp : PaddingZero s.length s.bytes) :
    PaddingZero s.length (Bit_bclear s i).bytes :=
  paddingZero_andByte _ _ _ _ hp

theorem paddingZero_Bit_put (s : Bit) (i bit : Nat) (hi : i < s.length)
    (hp : PaddingZero s.length s.bytes) :
    PaddingZero s.length (Bit_put s i bit).1.bytes := by
  unfold Bit_put
  split_ifs with hb
  · apply paddingZero_orByte _ _ _ _ hp
    intro p hLp hq
    rw [testBit_one_shiftLeft]
    simp only [decide_eq_false_iff_not]
    omega
  · exact paddingZero_andByte _ _ _ _ hp

theorem paddingZero_Bit_aset (indices : List Nat) : ∀ (s : Bit),
    (∀ i ∈ indices, i < s.length) → PaddingZero s.length s.bytes →
    PaddingZero s.length (Bit_aset s indices).bytes := by
  induction indices with
  | nil => intro s _ hp; exact hp
  | cons i rest ih =>
    intro s hidx hp
    show PaddingZero s.length (Bit_aset (Bit_bset s i) rest).bytes
    have hlen : (Bit_bset s i).length = s.length := rfl
    have := ih (Bit_bset s i)
      (by intro j hj; rw [hlen]; exact hidx j (by simp [hj]))
      (by rw [hlen]; exact paddingZero_Bit_bset s i (hidx i (by simp)) hp)
    rw [hlen] at this
    exact this

theorem paddingZero_Bit_aclear (indices : List Nat) : ∀ (s : Bit),
    PaddingZero s.length s.bytes →
    PaddingZero s.length (Bit_aclear s indices).bytes := by
  induction indices with
  | nil => intro s hp; exact hp
  | cons i rest ih =>
    intro s hp
    show PaddingZero s.length (Bit_aclear (Bit_bclear s i) rest).bytes
    have hlen : (Bit_bclear s i).length = s.length := rfl
    have := ih (Bit_bclear s i) (by rw [hlen]; exact paddingZero_Bit_bclear s i hp)
    rw [hlen] at this
    exact this

theorem paddingZero_Bit_set (s : Bit) (lo hi : Nat) (hlh : lo ≤ hi) (hhi : hi < s.length)
    (hp : PaddingZero s.length s.bytes) :
    PaddingZero s.length (Bit_set s lo hi).bytes := by
  unfold Bit_set
  split_ifs with hcase
  · show PaddingZero s.length (fillBytes _ _ _ _)
    apply paddingZero_fillBytes
    · apply paddingZero_orByte
      · apply paddingZero_orByte _ _ _ _ hp
        intro p hLp hq
        exact absurd hq (by omega)
      · intro p hLp hq
        have h8 : p % 8 < 8 := by omega
        rw [lsbmask_getD_testBit _ (by omega) _ h8]
        simp only [decide_eq_false_iff_not]
        omega
    · intro p hLp
      omega
  · apply paddingZero_orByte _ _ _ _ hp
    intro p hLp hq
    have h8 : p % 8 < 8 := by omega
    rw [Nat.testBit_and, lsbmask_getD_testBit _ (by omega) _ h8]
    simp only [Bool.and_eq_false_iff, decide_eq_false_iff_not]
    right
    omega

theorem paddingZero_fillBytes_zero (L : Nat) (bytes : List Nat) (i cnt : Nat)
    (hp : PaddingZero L bytes) :
    PaddingZero L (fillBytes 0 cnt bytes i) := by
  intro p hLp
  have hold := (bitAt_zero_iff bytes p).mp (hp p hLp)
  rw [bitAt_zero_iff, getD_fillBytes]
  split_ifs with h
  · simp
  · exact hold

theorem paddingZero_Bit_clear (s : Bit) (lo hi : Nat)
    (hp : PaddingZero s.length s.bytes) :
    PaddingZero s.length (Bit_clear s lo hi).bytes := by
  unfold Bit_clear
  split_ifs with hcase
  · exact paddingZero_fillBytes_zero _ _ _ _
      (paddingZero_andByte _ _ _ _ (paddingZero_andByte _ _ _ _ hp))
  · exact paddingZero_andByte _ _ _ _ hp

theorem paddingZero_Bit_not (s : Bit) (lo hi : Nat) (hlh : lo ≤ hi) (hhi : hi < s.length)
    (hp : PaddingZero s.length s.bytes) :
    PaddingZero s.length (Bit_not s lo hi).bytes := by
  unfold Bit_not
  split_ifs with hcase
  · show PaddingZero s.length (complementBytes _ _ _)
    apply paddingZero_complementBytes
    · apply paddingZero_xorByte
      · apply paddingZero_xorByte _ _ _ _ hp
        intro p hLp hq
        exact absurd hq (by omega)
      · intro p hLp hq
        have h8 : p % 8 < 8 := by omega
        rw [lsbmask_getD_testBit _ (by omega) _ h8]
        simp only [decide_eq_false_iff_not]
        omega
    · intro p hLp
      omega
  · apply paddingZero_xorByte _ _ _ _ hp
    intro p hLp hq
    have h8 : p % 8 < 8 := by omega
    rw [Nat.testBit_and, lsbmask_getD_testBit _ (by omega) _ h8]
    simp only [Bool.and_eq_false_iff, decide_eq_false_iff_not]
    right
    omega

theorem paddingZero_replicate (L n : Nat) : PaddingZero L (List.replicate n 0) := by
  intro p _
  unfold bitAt
  rw [getD_replicate]
  simp

theorem paddingZero_Bit_new (L : Nat) : PaddingZero L (Bit_new L).bytes :=
  paddingZero_replicate L _

theorem paddingZero_copy (t : Bit) (hw : t.WF) (hp : PaddingZero t.length t.bytes) :
    PaddingZero t.length (copy t).bytes := by
  obtain ⟨hq, hb, hl, hmem, hpos, hmax⟩ := hw
  unfold copy
  rw [if_pos hpos]
  intro p hLp
  have hold := (bitAt_zero_iff t.bytes p).mp (hp p hLp)
  rw [bitAt_zero_iff]
  show ((splice (Bit_new t.length).bytes 0 (t.bytes.take t.size_in_bytes)).getD
    (p / 8) 0).testBit (p % 8) = false
  have hsrclen : (t.bytes.take t.size_in_bytes).length = t.size_in_bytes := by
    rw [List.length_take]
    omega
  have hdstlen : (Bit_new t.length).bytes.length = t.size_in_bytes := by
    show (List.replicate (nqwords t.length * 8) 0).length = _
    rw [List.length_replicate]
    omega
  rw [getD_splice _ _ _ _ (by omega)]
  split_ifs with h
  · rw [Nat.sub_zero, getD_take, if_pos (by omega)]
    exact hold
  · show ((List.replicate (nqwords t.length * 8) 0).getD (p / 8) 0).testBit (p % 8) = false
    rw [getD_replicate]
    simp

theorem paddingZero_setop_result (sa tb : Bit) (op : Nat → Nat → Nat)
    (hwa : sa.WF) (hwb : tb.WF) (hlen : sa.length = tb.length)
    (hpa : PaddingZero sa.length sa.bytes) (hpb : PaddingZero tb.length tb.bytes)
    (hop : ∀ a b m, a.testBit m = false → b.testBit m = false →
      (op a b).testBit m = false) :
    PaddingZero sa.length
      (wordsToBytes ((List.range sa.size_in_qwords).map
        (fun i => op (qwordAt sa.bytes i) (qwordAt tb.bytes i)))
       ++ (Bit_new sa.length).bytes.drop (8 * sa.size_in_qwords)) := by
  intro p hLp
  set ws := (List.range sa.size_in_qwords).map
    (fun i => op (qwordAt sa.bytes i) (qwordAt tb.bytes i)) with hws
  have hX : (ws.getD (p / 64) 0).testBit (p % 64) = false := by
    rw [hws, getD_map_range]
    split_ifs with hw
    · apply hop
      · exact paddingZero_qword sa.length sa.bytes hwa.2.2.2.1 hpa _ _
          (by omega) (by omega)
      · exact paddingZero_qword tb.length tb.bytes hwb.2.2.2.1 hpb _ _
          (by omega) (by omega)
    · simp
  have h1 := bitAt_wordsToBytes ws p
  have hz : bitAt (wordsToBytes ws) p = 0 := by
    rw [h1, hX]
    simp
  have hfalse := (bitAt_zero_iff (wordsToBytes ws) p).mp hz
  have hzero : ((List.replicate (nqwords sa.length * 8) 0).drop
      (8 * sa.size_in_qwords)).getD (p / 8 - (wordsToBytes ws).length) 0 = 0 := by
    rw [getD_drop, getD_replicate]
  have hdrop : (Bit_new sa.length).bytes.drop (8 * sa.size_in_qwords)
      = (List.replicate (nqwords sa.length * 8) 0).drop (8 * sa.size_in_qwords) := rfl
  rw [bitAt_eq_testBit, getD_append]
  split_ifs with hrange hbitA hbitB
  · rw [hfalse] at hbitA
    exact absurd hbitA (by simp)
  · rfl
  · rw [hdrop, hzero] at hbitB
    exact absurd hbitB (by simp)
  · rfl

/-- Padding preservation through the setop macro, for any branch taken. -/
theorem setop_ok_padding (heap : Nat → Bit) (s t : Option Nat)
    (sequal snull tnull : Bit → Bit) (op : Nat → Nat → Nat) (r : Bit)
    (hheap : ∀ n, (heap n).WF ∧ PaddingZero (heap n).length (heap n).bytes)
    (hse : ∀ b : Bit, b.WF → PaddingZero b.length b.bytes →
      PaddingZero (sequal b).length (sequal b).bytes)
    (hsn : ∀ b : Bit, b.WF → PaddingZero b.length b.bytes →
      PaddingZero (snull b).length (snull b).bytes)
    (htn : ∀ b : Bit, b.WF → PaddingZero b.length b.bytes →
      PaddingZero (tnull b).length (tnull b).bytes)
    (hop : ∀ a b m, a.testBit m = false → b.testBit m = false →
      (op a b).testBit m = false)
    (h : setop heap s t sequal snull tnull op = .ok r) :
    PaddingZero r.length r.bytes := by
  unfold setop at h
  cases s with
  | none =>
    cases t with
    | none => exact absurd h (by simp)
    | some b =>
      have hr : snull (heap b) = r := by simpa using h
      rw [← hr]
      exact hsn (heap b) (hheap b).1 (hheap b).2
  | some a =>
    cases t with
    | none =>
      have hr : tnull (heap a) = r := by simpa using h
      rw [← hr]
      exact htn (heap a) (hheap a).1 (hheap a).2
    | some b =>
      simp only [] at h
      split_ifs at h with heq hlen
      · have hr : sequal (heap a) = r := by simpa using h
        rw [← hr]
        exact hse (heap a) (hheap a).1 (hheap a).2
      · simp only [Except.ok.injEq] at h
        rw [← h]
        exact paddingZero_setop_result (heap a) (heap b) op (hheap a).1 (hheap b).1
          hlen (hheap a).2 (hheap b).2 hop

theorem copy_length (t : Bit) : (copy t).length = t.length := by
  unfold copy
  split_ifs <;> rfl

theorem Bit_diff_ok_padding (heap : Nat → Bit) (s t : Option Nat) (r : Bit)
    (hheap : ∀ n, (heap n).WF ∧ PaddingZero (heap n).length (heap n).bytes)
    (h : Bit_diff heap s t = .ok r) : PaddingZero r.length r.bytes := by
  refine setop_ok_padding heap s t _ _ _ _ r hheap ?_ ?_ ?_ ?_ h
  · intro b _ _; exact paddingZero_Bit_new b.length
  · intro b hw hp
    rw [copy_length]
    exact paddingZero_copy b hw hp
  · intro b hw hp
    rw [copy_length]
    exact paddingZero_copy b hw hp
  · intro a b m ha hb
    rw [Nat.testBit_xor, ha, hb]
    rfl

theorem Bit_minus_ok_padding (heap : Nat → Bit) (s t : Option Nat) (r : Bit)
    (hheap : ∀ n, (heap n).WF ∧ PaddingZero (heap n).length (heap n).bytes)
    (h : Bit_minus heap s t = .ok r) : PaddingZero r.length r.bytes := by
  refine setop_ok_padding heap s t _ _ _ _ r hheap ?_ ?_ ?_ ?_ h
  · intro b _ _; exact paddingZero_Bit_new b.length
  · intro b _ _; exact paddingZero_Bit_new b.length
  · intro b hw hp
    rw [copy_length]
    exact paddingZero_copy b hw hp
  · intro a b m ha _
    rw [Nat.testBit_and, ha]
    rfl

theorem Bit_inter_ok_padding (heap : Nat → Bit) (s t : Option Nat) (r : Bit)
    (hheap : ∀ n, (heap n).WF ∧ PaddingZero (heap n).length (heap n).bytes)
    (h : Bit_inter heap s t = .ok r) : PaddingZero r.length r.bytes := by
  refine setop_ok_padding heap s t _ _ _ _ r hheap ?_ ?_ ?_ ?_ h
  · intro b hw hp
    rw [copy_length]
    exact paddingZero_copy b hw hp
  · intro b _ _; exact paddingZero_Bit_new b.length
  · intro b _ _; exact paddingZero_Bit_new b.length
  · intro a b m ha _
    rw [Nat.testBit_and, ha]
    rfl

theorem Bit_union_ok_padding (heap : Nat → Bit) (s t : Option Nat) (r : Bit)
    (hheap : ∀ n, (heap n).WF ∧ PaddingZero (heap n).length (heap n).bytes)
    (h : Bit_union heap s t = .ok r) : PaddingZero r.length r.bytes := by
  refine setop_ok_padding heap s t _ _ _ _ r hheap ?_ ?_ ?_ ?_ h
  · intro b hw hp
    rw [copy_length]
    exact paddingZero_copy b hw hp
  · intro b hw hp
    rw [copy_length]
    exact paddingZero_copy b hw hp
  · intro b hw hp
    rw [copy_length]
    exact paddingZero_copy b hw hp
  · intro a b m ha hb
    rw [Nat.testBit_or, ha, hb]
    rfl

/-! ## Comparison loop lemmas -/

theorem and_complement64_self (w : Nat) (hw : w < 2 ^ 64) :
    w &&& complement64 w = 0 := by
  apply Nat.eq_of_testBit_eq
  intro m
  unfold complement64
  rw [Nat.testBit_and, Nat.testBit_xor, Nat.testBit_two_pow_sub_one,
      Nat.zero_testBit]
  by_cases hm : m < 64
  · simp [hm]
  · have : w.testBit m = false := by
      apply Nat.testBit_lt_two_pow
      calc w < 2 ^ 64 := hw
        _ ≤ 2 ^ m := Nat.pow_le_pow_right (by omega) (by omega)
    simp [this]

theorem Bit_lt_loop_imp_leq (s t : Bit) : ∀ (n : Nat) (acc : Nat),
    Bit_lt_loop s t n acc = 1 → Bit_leq_loop s t n = 1 := by
  intro n
  induction n with
  | zero => intro acc _; rfl
  | succ n ih =>
    intro acc h
    unfold Bit_lt_loop at h
    unfold Bit_leq_loop
    by_cases hc : (qwordAt s.bytes n &&& complement64 (qwordAt t.bytes n)) ≠ 0
    · rw [if_pos hc] at h
      exact absurd h (by omega)
    · rw [if_neg hc] at h
      rw [if_neg hc]
      exact ih _ h

theorem Bit_lt_loop_self (s : Bit) (hmem : ∀ b ∈ s.bytes, b < 256) :
    ∀ (n : Nat) (acc : Nat),
    Bit_lt_loop s s n acc = if ∀ i, i < n → qwordAt s.bytes i = 0 then acc else 1 := by
  intro n
  induction n with
  | zero => intro acc; simp [Bit_lt_loop]
  | succ n ih =>
    intro acc
    unfold Bit_lt_loop
    have hzero : qwordAt s.bytes n &&& complement64 (qwordAt s.bytes n) = 0 :=
      and_complement64_self _ (qwordAt_lt s.bytes hmem n)
    rw [if_neg (by simp [hzero]), Nat.and_self, ih]
    by_cases hall : ∀ i, i < n + 1 → qwordAt s.bytes i = 0
    · rw [if_pos hall, if_pos (fun i hi => hall i (by omega)),
          if_neg (by simp [hall n (by omega)])]
    · rw [if_neg hall]
      by_cases hn : ∀ i, i < n → qwordAt s.bytes i = 0
      · rw [if_pos hn]
        have hlast : qwordAt s.bytes n ≠ 0 := by
          intro hz
          exact hall (fun i hi => by
            rcases Nat.lt_or_ge i n with hlt | hge
            · exact hn i hlt
            · have : i = n := by omega
              rw [this]; exact hz)
        rw [if_pos hlast]
      · rw [if_neg hn]

theorem count_WWG_eq_zero_iff (w : Nat) (hw : w < 2 ^ 64) :
    count_WWG w = 0 ↔ w = 0 := by
  rw [count_WWG_eq_popcount w hw]
  exact popcount_eq_zero_iff w

theorem Bit_count_eq_popcount_sum (s : Bit) (hmem : ∀ b ∈ s.bytes, b < 256) :
    Bit_count s = sumTo (fun i => popcount (qwordAt s.bytes i)) (nqwords s.length) := by
  unfold Bit_count
  exact sumTo_congr _ _ _
    (fun i _ => count_WWG_eq_popcount _ (qwordAt_lt s.bytes hmem i))

theorem Bit_count_eq_zero_iff (s : Bit) (hmem : ∀ b ∈ s.bytes, b < 256) :
    (Bit_count s = 0 ↔ ∀ i, i < nqwords s.length → qwordAt s.bytes i = 0) := by
  unfold Bit_count
  rw [sumTo_eq_zero_iff]
  constructor
  · intro h i hi
    exact (count_WWG_eq_zero_iff _ (qwordAt_lt s.bytes hmem i)).mp (h i hi)
  · intro h i hi
    rw [h i hi]
    decide

/-! ## Count identities over the word folds -/

theorem sumTo_two_mul (f : Nat → Nat) (n : Nat) :
    2 * sumTo f n = sumTo (fun i => f i + f i) n := by
  rw [sumTo_add]
  omega

theorem setop_count_words_eq_popcount (sa tb : Bit) (op : Nat → Nat → Nat)
    (hma : ∀ b ∈ sa.bytes, b < 256) (hmb : ∀ b ∈ tb.bytes, b < 256)
    (hop64 : ∀ a b, a < 2 ^ 64 → b < 2 ^ 64 → op a b < 2 ^ 64) :
    setop_count_words sa tb op
      = sumTo (fun i => popcount (op (qwordAt sa.bytes i) (qwordAt tb.bytes i)))
          sa.size_in_qwords := by
  unfold setop_count_words
  apply sumTo_congr
  intro i _
  exact count_WWG_eq_popcount _
    (hop64 _ _ (qwordAt_lt sa.bytes hma i) (qwordAt_lt tb.bytes hmb i))

theorem count_sizes (sa tb : Bit) (hwa : sa.WF) (hwb : tb.WF)
    (hlen : sa.length = tb.length) :
    Bit_count sa = sumTo (fun i => popcount (qwordAt sa.bytes i)) sa.size_in_qwords
    ∧ Bit_count tb = sumTo (fun i => popcount (qwordAt tb.bytes i)) sa.size_in_qwords
    ∧ tb.size_in_qwords = sa.size_in_qwords := by
  have hW : nqwords tb.length = sa.size_in_qwords := by
    rw [← hlen]
    exact hwa.1.symm
  refine ⟨?_, ?_, ?_⟩
  · rw [Bit_count_eq_popcount_sum sa hwa.2.2.2.1, ← hwa.1]
  · rw [Bit_count_eq_popcount_sum tb hwb.2.2.2.1, hW]
  · rw [hwb.1, hW]

theorem setop_count_words_or_add_and (sa tb : Bit) (hwa : sa.WF) (hwb : tb.WF)
    (hlen : sa.length = tb.length) :
    setop_count_words sa tb (fun a b => a ||| b)
      + setop_count_words sa tb (fun a b => a &&& b)
      = Bit_count sa + Bit_count tb := by
  obtain ⟨hca, hcb, _⟩ := count_sizes sa tb hwa hwb hlen
  rw [setop_count_words_eq_popcount sa tb _ hwa.2.2.2.1 hwb.2.2.2.1
        (fun a b ha hb => Nat.or_lt_two_pow ha hb),
      setop_count_words_eq_popcount sa tb _ hwa.2.2.2.1 hwb.2.2.2.1
        (fun a b ha _ => lt_of_le_of_lt Nat.and_le_left ha),
      hca, hcb, ← sumTo_add, ← sumTo_add]
  apply sumTo_congr
  intro i _
  exact popcount_or_add_and 64 _ _ (qwordAt_lt sa.bytes hwa.2.2.2.1 i)
    (qwordAt_lt tb.bytes hwb.2.2.2.1 i)

theorem setop_count_words_xor_split (sa tb : Bit) (hwa : sa.WF) (hwb : tb.WF)
    (hlen : sa.length = tb.length) :
    setop_count_words sa tb (fun a b => a ^^^ b)
      = setop_count_words sa tb (fun a b => a &&& complement64 b)
        + setop_count_words tb sa (fun a b => a &&& complement64 b) := by
  obtain ⟨_, _, hW⟩ := count_sizes sa tb hwa hwb hlen
  rw [setop_count_words_eq_popcount sa tb _ hwa.2.2.2.1 hwb.2.2.2.1
        (fun a b ha hb => Nat.xor_lt_two_pow ha hb),
      setop_count_words_eq_popcount sa tb _ hwa.2.2.2.1 hwb.2.2.2.1
        (fun a b ha _ => lt_of_le_of_lt Nat.and_le_left ha),
      setop_count_words_eq_popcount tb sa _ hwb.2.2.2.1 hwa.2.2.2.1
        (fun a b ha _ => lt_of_le_of_lt Nat.and_le_left ha),
      hW, ← sumTo_add]
  apply sumTo_congr
  intro i _
  have h := popcount_xor_eq_andn_add_andn 64 (qwordAt sa.bytes i) (qwordAt tb.bytes i)
    (qwordAt_lt sa.bytes hwa.2.2.2.1 i) (qwordAt_lt tb.bytes hwb.2.2.2.1 i)
  rw [Nat.xor_comm ((2 : Nat) ^ 64 - 1) (qwordAt tb.bytes i),
      Nat.xor_comm ((2 : Nat) ^ 64 - 1) (qwordAt sa.bytes i)] at h
  unfold complement64
  exact h

theorem setop_count_words_xor_add_two_and (sa tb : Bit) (hwa : sa.WF) (hwb : tb.WF)
    (hlen : sa.length = tb.length) :
    setop_count_words sa tb (fun a b => a ^^^ b)
      + 2 * setop_count_words sa tb (fun a b => a &&& b)
      = Bit_count sa + Bit_count tb := by
  obtain ⟨hca, hcb, _⟩ := count_sizes sa tb hwa hwb hlen
  rw [setop_count_words_eq_popcount sa tb _ hwa.2.2.2.1 hwb.2.2.2.1
        (fun a b ha hb => Nat.xor_lt_two_pow ha hb),
      setop_count_words_eq_popcount sa tb _ hwa.2.2.2.1 hwb.2.2.2.1
        (fun a b ha _ => lt_of_le_of_lt Nat.and_le_left ha),
      hca, hcb, sumTo_two_mul, ← sumTo_add, ← sumTo_add]
  apply sumTo_congr
  intro i _
  have h := popcount_xor_add_two_mul_and 64 (qwordAt sa.bytes i) (qwordAt tb.bytes i)
    (qwordAt_lt sa.bytes hwa.2.2.2.1 i) (qwordAt_lt tb.bytes hwb.2.2.2.1 i)
  omega

/-! ## Concrete fixtures for counterexamples and witnesses -/

/-- A well-formed one-bit bitset whose single bit is set. -/
def bitOne : Bit :=
  { length := 1, size_in_bytes := 8, size_in_qwords := 1,
    is_Bit_T_allocated := true, bytes := [1, 0, 0, 0, 0, 0, 0, 0] }

/-- A well-formed 64-bit bitset holding {0, 2}. -/
def bitA : Bit :=
  { length := 64, size_in_bytes := 8, size_in_qwords := 1,
    is_Bit_T_allocated := true, bytes := [5, 0, 0, 0, 0, 0, 0, 0] }

/-- A well-formed 64-bit bitset holding {1, 2}. -/
def bitB : Bit :=
  { length := 64, size_in_bytes := 8, size_in_qwords := 1,
    is_Bit_T_allocated := true, bytes := [6, 0, 0, 0, 0, 0, 0, 0] }

/-- A two-cell heap for the pointer-taking binary operations. -/
def heapAB : Nat → Bit := fun n => if n = 0 then bitA else bitB

/-- One-slot container of width 64 holding {0}. -/
def dbA : BitDB :=
  { nelem := 1, length := 64, size_in_bytes := 8, size_in_qwords := 1,
    is_Bit_T_allocated := true, bytes := [1, 0, 0, 0, 0, 0, 0, 0] }

/-- One-slot container of width 64 holding {1}. -/
def dbB : BitDB :=
  { nelem := 1, length := 64, size_in_bytes := 8, size_in_qwords := 1,
    is_Bit_T_allocated := true, bytes := [2, 0, 0, 0, 0, 0, 0, 0] }

/-- All-neutral options record. -/
def opts0 : SETOP_COUNT_OPTS :=
  { device_id := 0, num_cpu_threads := 0,
    upd_1st_operand := false, upd_2nd_operand := false,
    release_1st_operand := false, release_2nd_operand := false,
    release_counts := false }

/-- Options releasing both operands but not the counts. -/
def opts10 : SETOP_COUNT_OPTS :=
  { device_id := 0, num_cpu_threads := 0,
    upd_1st_operand := false, upd_2nd_operand := false,
    release_1st_operand := true, release_2nd_operand := true,
    release_counts := false }

/-- Device state with nothing resident. -/
def st0 : GpuState := { rc1st := 0, rc2nd := 0, rcCounts := 0 }

/-- Device state with both operands resident (reference count 1) and the
counts buffer absent. -/
def st10 : GpuState := { rc1st := 1, rc2nd := 1, rcCounts := 0 }

/-! ## The claims -/

/-- C3 counterexample: on the non-empty bitset bitOne, Bit_lt(s, s) returns
1, not 0 as the claim demands, and Bit_eq(s, s) returns 1 at the same time,
so Bit_lt = 1 does not exclude equality. -/
theorem C3_counterexample :
    Bit_lt bitOne bitOne = 1 ∧ Bit_eq bitOne bitOne = 1
      ∧ ¬ Bit_lt bitOne bitOne = 0 := by
  refine ⟨rfl, rfl, ?_⟩
  intro h
  have h1 : Bit_lt bitOne bitOne = 1 := rfl
  omega

/-- C3 (amended): for bitsets of equal length, Bit_lt(s, t) = 1 still implies
Bit_leq(s, t) = 1, but Bit_lt(s, s) is 0 exactly when s has no set bit
(Bit_count s = 0); a non-empty s gives Bit_lt(s, s) = 1, so Bit_lt = 1 does
not imply Bit_eq = 0. -/
theorem C3_lt_semantics (s t : Bit) (hws : s.WF) (hwt : t.WF)
    (hlen : s.length = t.length) :
    (Bit_lt s t = 1 → Bit_leq s t = 1)
    ∧ Bit_lt s s = (if Bit_count s = 0 then 0 else 1) := by
  constructor
  · intro h
    exact Bit_lt_loop_imp_leq s t _ _ h
  · show Bit_lt_loop s s s.size_in_qwords 0 = _
    rw [Bit_lt_loop_self s hws.2.2.2.1]
    have hiff := Bit_count_eq_zero_iff s hws.2.2.2.1
    have hszq : s.size_in_qwords = nqwords s.length := hws.1
    by_cases hc : Bit_count s = 0
    · rw [if_pos hc, if_pos (by rw [hszq]; exact hiff.mp hc)]
    · rw [if_neg hc, if_neg (by rw [hszq]; intro hall; exact hc (hiff.mpr hall))]

theorem C3_lt_semantics_witness :
    bitOne.WF ∧ bitB.WF ∧ bitOne.length = bitOne.length
    ∧ ((Bit_lt bitOne bitOne = 1 → Bit_leq bitOne bitOne = 1)
      ∧ Bit_lt bitOne bitOne = (if Bit_count bitOne = 0 then 0 else 1)) :=
  ⟨by decide, by decide, rfl,
   C3_lt_semantics bitOne bitOne (by decide) (by decide) rfl⟩

/-- C4 counterexample: freeing a handle that wraps a caller-supplied buffer
obtained via Bit_load is not a checked error: Bit_free succeeds, returning
the nulled handle and releasing no storage. -/
theorem C4_counterexample :
    (Bit_load 8 [255]).is_Bit_T_allocated = false
    ∧ Bit_free (some (Bit_load 8 [255])) = .ok (none, false) :=
  ⟨rfl, rfl⟩

/-- C4 (amended): Bit_free takes the handle by reference, releases the bit
storage exactly when the ownership tag says library-allocated, and sets the
caller handle to null; double free (a null handle) is a checked error; but
freeing a handle wrapping a loaded buffer succeeds, releasing only the
struct and not the caller buffer. -/
theorem C4_free_semantics :
    (∀ b : Bit, Bit_free (some b) = .ok (none, b.is_Bit_T_allocated))
    ∧ Bit_free none = .error "assert(set && *set) failed"
    ∧ (∀ (L : Nat) (buffer : List Nat),
        (Bit_load L buffer).is_Bit_T_allocated = false)
    ∧ (∀ L : Nat, (Bit_new L).is_Bit_T_allocated = true) :=
  ⟨fun _ => rfl, rfl, fun _ _ => rfl, fun _ => rfl⟩

/-- C5: the absent-operand table of the count-only binary operations holds
exactly as the claim states: inter with one absent operand is 0, minus is 0
when the first operand is absent and count(s) when the second is, diff and
union return the surviving operand count, a repeated handle gives 0 for
diff and minus and count(s) for inter and union, and both operands absent
is a checked error for all four. -/
theorem C5_null_convention_counts (heap : Nat → Bit) (a : Nat) :
    Bit_inter_count heap (some a) none = .ok 0
    ∧ Bit_inter_count heap none (some a) = .ok 0
    ∧ Bit_minus_count heap none (some a) = .ok 0
    ∧ Bit_minus_count heap (some a) none = .ok (Bit_count (heap a))
    ∧ Bit_diff_count heap (some a) none = .ok (Bit_count (heap a))
    ∧ Bit_diff_count heap none (some a) = .ok (Bit_count (heap a))
    ∧ Bit_union_count heap (some a) none = .ok (Bit_count (heap a))
    ∧ Bit_union_count heap none (some a) = .ok (Bit_count (heap a))
    ∧ Bit_diff_count heap (some a) (some a) = .ok 0
    ∧ Bit_minus_count heap (some a) (some a) = .ok 0
    ∧ Bit_inter_count heap (some a) (some a) = .ok (Bit_count (heap a))
    ∧ Bit_union_count heap (some a) (some a) = .ok (Bit_count (heap a))
    ∧ Bit_inter_count heap none none = .error "assert(s) failed"
    ∧ Bit_union_count heap none none = .error "assert(s) failed"
    ∧ Bit_diff_count heap none none = .error "assert(s) failed"
    ∧ Bit_minus_count heap none none = .error "assert(s) failed" := by
  refine ⟨rfl, rfl, rfl, rfl, rfl, rfl, rfl, rfl, ?_, ?_, ?_, ?_, rfl, rfl, rfl, rfl⟩ <;>
    simp [Bit_diff_count, Bit_minus_count, Bit_inter_count, Bit_union_count,
      setop_count]

/-- C7: for every 64-bit input the five-step Wilks Wheeler Gill reduction
count_WWG returns the number of 1 bits, a value between 0 and 64, and
Bit_count of a well-formed bitset is the sum of the 1 bits of its
ceil(L / 64) stored words. -/
theorem C7_popcount_wwg :
    (∀ x, x < 2 ^ 64 → count_WWG x = popcount x ∧ popcount x ≤ 64)
    ∧ (∀ s : Bit, s.WF →
        Bit_count s
          = sumTo (fun i => popcount (qwordAt s.bytes i)) ((s.length + 63) / 64)) := by
  constructor
  · intro x hx
    exact ⟨count_WWG_eq_popcount x hx, popcount_le_of_lt_two_pow 64 x hx⟩
  · intro s hw
    rw [Bit_count_eq_popcount_sum s hw.2.2.2.1, nqwords_eq s.length hw.2.2.2.2.2]

theorem C7_popcount_wwg_witness :
    ((0xDEADBEEF : Nat) < 2 ^ 64
      ∧ count_WWG 0xDEADBEEF = popcount 0xDEADBEEF ∧ popcount 0xDEADBEEF ≤ 64)
    ∧ (bitA.WF
      ∧ Bit_count bitA
          = sumTo (fun i => popcount (qwordAt bitA.bytes i)) ((bitA.length + 63) / 64)) :=
  ⟨⟨by decide, C7_popcount_wwg.1 0xDEADBEEF (by decide)⟩,
   ⟨by decide, C7_popcount_wwg.2 bitA (by decide)⟩⟩

/-- C8: for well-formed operands of equal length, the count-only operations
satisfy union + inter = count s + count t, diff = minus(s, t) + minus(t, s),
and diff = count s + count t - 2 * inter; this holds both for distinct
handles and for a repeated handle. -/
theorem C8_count_de_morgan (heap : Nat → Bit) (a b : Nat)
    (hwa : (heap a).WF) (hwb : (heap b).WF)
    (hlen : (heap a).length = (heap b).length) :
    ∃ u i d m1 m2 : Nat,
      Bit_union_count heap (some a) (some b) = .ok u
      ∧ Bit_inter_count heap (some a) (some b) = .ok i
      ∧ Bit_diff_count heap (some a) (some b) = .ok d
      ∧ Bit_minus_count heap (some a) (some b) = .ok m1
      ∧ Bit_minus_count heap (some b) (some a) = .ok m2
      ∧ u + i = Bit_count (heap a) + Bit_count (heap b)
      ∧ d = m1 + m2
      ∧ d = Bit_count (heap a) + Bit_count (heap b) - 2 * i := by
  by_cases hab : a = b
  · subst hab
    refine ⟨Bit_count (heap a), Bit_count (heap a), 0, 0, 0, ?_, ?_, ?_, ?_, ?_,
      rfl, rfl, by omega⟩ <;>
      simp [Bit_union_count, Bit_inter_count, Bit_diff_count, Bit_minus_count,
        setop_count]
  · have hor := setop_count_words_or_add_and (heap a) (heap b) hwa hwb hlen
    have hxs := setop_count_words_xor_split (heap a) (heap b) hwa hwb hlen
    have hx2 := setop_count_words_xor_add_two_and (heap a) (heap b) hwa hwb hlen
    have hboth : ∀ (sequal snull tnull : Bit → Nat) (op : Nat → Nat → Nat),
        setop_count heap (some a) (some b) sequal snull tnull op
          = .ok (setop_count_words (heap a) (heap b) op) := by
      intro sequal snull tnull op
      simp only [setop_count]
      rw [if_neg hab, if_pos hlen]
    have hboth' : ∀ (sequal snull tnull : Bit → Nat) (op : Nat → Nat → Nat),
        setop_count heap (some b) (some a) sequal snull tnull op
          = .ok (setop_count_words (heap b) (heap a) op) := by
      intro sequal snull tnull op
      simp only [setop_count]
      rw [if_neg (Ne.symm hab), if_pos hlen.symm]
    exact ⟨setop_count_words (heap a) (heap b) (fun x y => x ||| y),
      setop_count_words (heap a) (heap b) (fun x y => x &&& y),
      setop_count_words (heap a) (heap b) (fun x y => x ^^^ y),
      setop_count_words (heap a) (heap b) (fun x y => x &&& complement64 y),
      setop_count_words (heap b) (heap a) (fun x y => x &&& complement64 y),
      hboth _ _ _ _, hboth _ _ _ _, hboth _ _ _ _, hboth _ _ _ _,
      hboth' _ _ _ _, hor, hxs, by omega⟩

theorem C8_count_de_morgan_witness :
    ((heapAB 0).WF ∧ (heapAB 1).WF ∧ (heapAB 0).length = (heapAB 1).length)
    ∧ (∃ u i d m1 m2 : Nat,
      Bit_union_count heapAB (some 0) (some 1) = .ok u
      ∧ Bit_inter_count heapAB (some 0) (some 1) = .ok i
      ∧ Bit_diff_count heapAB (some 0) (some 1) = .ok d
      ∧ Bit_minus_count heapAB (some 0) (some 1) = .ok m1
      ∧ Bit_minus_count heapAB (some 1) (some 0) = .ok m2
      ∧ u + i = Bit_count (heapAB 0) + Bit_count (heapAB 1)
      ∧ d = m1 + m2
      ∧ d = Bit_count (heapAB 0) + Bit_count (heapAB 1) - 2 * i) :=
  ⟨⟨by decide, by decide, rfl⟩,
   C8_count_de_morgan heapAB 0 1 (by decide) (by decide) rfl⟩

/-- C6: the padding invariant. Bits at positions in [L, 64 * ceil(L / 64))
are zero after Bit_new, are preserved by every mutator (bset, bclear, put,
aset, aclear, set, clear, not — including ranges whose hi index falls inside
the last byte or word), and hold in every bitset returned by Bit_diff,
Bit_inter, Bit_minus and Bit_union on operands satisfying the invariant
(whatever NULL or aliasing branch is taken). -/
theorem C6_padding_invariant :
    (∀ L : Nat, PaddingZero (Bit_new L).length (Bit_new L).bytes)
    ∧ (∀ (s : Bit) (i : Nat), i < s.length → PaddingZero s.length s.bytes →
        PaddingZero s.length (Bit_bset s i).bytes)
    ∧ (∀ (s : Bit) (i : Nat), PaddingZero s.length s.bytes →
        PaddingZero s.length (Bit_bclear s i).bytes)
    ∧ (∀ (s : Bit) (i bit : Nat), i < s.length → PaddingZero s.length s.bytes →
        PaddingZero s.length (Bit_put s i bit).1.bytes)
    ∧ (∀ (s : Bit) (indices : List Nat), (∀ i ∈ indices, i < s.length) →
        PaddingZero s.length s.bytes → PaddingZero s.length (Bit_aset s indices).bytes)
    ∧ (∀ (s : Bit) (indices : List Nat), PaddingZero s.length s.bytes →
        PaddingZero s.length (Bit_aclear s indices).bytes)
    ∧ (∀ (s : Bit) (lo hi : Nat), lo ≤ hi → hi < s.length →
        PaddingZero s.length s.bytes → PaddingZero s.length (Bit_set s lo hi).bytes)
    ∧ (∀ (s : Bit) (lo hi : Nat), PaddingZero s.length s.bytes →
        PaddingZero s.length (Bit_clear s lo hi).bytes)
    ∧ (∀ (s : Bit) (lo hi : Nat), lo ≤ hi → hi < s.length →
        PaddingZero s.length s.bytes → PaddingZero s.length (Bit_not s lo hi).bytes)
    ∧ (∀ (heap : Nat → Bit) (s t : Option Nat) (r : Bit),
        (∀ n, (heap n).WF ∧ PaddingZero (heap n).length (heap n).bytes) →
        Bit_diff heap s t = .ok r → PaddingZero r.length r.bytes)
    ∧ (∀ (heap : Nat → Bit) (s t : Option Nat) (r : Bit),
        (∀ n, (heap n).WF ∧ PaddingZero (heap n).length (heap n).bytes) →
        Bit_inter heap s t = .ok r → PaddingZero r.length r.bytes)
    ∧ (∀ (heap : Nat → Bit) (s t : Option Nat) (r : Bit),
        (∀ n, (heap n).WF ∧ PaddingZero (heap n).length (heap n).bytes) →
        Bit_minus heap s t = .ok r → PaddingZero r.length r.bytes)
    ∧ (∀ (heap : Nat → Bit) (s t : Option Nat) (r : Bit),
        (∀ n, (heap n).WF ∧ PaddingZero (heap n).length (heap n).bytes) →
        Bit_union heap s t = .ok r → PaddingZero r.length r.bytes) :=
  ⟨fun L => paddingZero_Bit_new L,
   fun s i hi hp => paddingZero_Bit_bset s i hi hp,
   fun s i hp => paddingZero_Bit_bclear s i hp,
   fun s i bit hi hp => paddingZero_Bit_put s i bit hi hp,
   fun s indices hidx hp => paddingZero_Bit_aset indices s hidx hp,
   fun s indices hp => paddingZero_Bit_aclear indices s hp,
   fun s lo hi hlh hhi hp => paddingZero_Bit_set s lo hi hlh hhi hp,
   fun s lo hi hp => paddingZero_Bit_clear s lo hi hp,
   fun s lo hi hlh hhi hp => paddingZero_Bit_not s lo hi hlh hhi hp,
   fun heap s t r hheap h => Bit_diff_ok_padding heap s t r hheap h,
   fun heap s t r hheap h => Bit_inter_ok_padding heap s t r hheap h,
   fun heap s t r hheap h => Bit_minus_ok_padding heap s t r hheap h,
   fun heap s t r hheap h => Bit_union_ok_padding heap s t r hheap h⟩

/-- Fixture with length 13 (padding positions 13..63 within one word). -/
def bit13 : Bit :=
  { length := 13, size_in_bytes := 8, size_in_qwords := 1,
    is_Bit_T_allocated := true, bytes := [255, 31, 0, 0, 0, 0, 0, 0] }

/-- Heap of length-13 fixtures for the setop witness. -/
def heap13 : Nat → Bit := fun _ => bit13

/-- The all-zero length-13 bitset produced by diff and minus on two equal
length-13 operands. -/
def bit13zero : Bit :=
  { length := 13, size_in_bytes := 8, size_in_qwords := 1,
    is_Bit_T_allocated := true, bytes := [0, 0, 0, 0, 0, 0, 0, 0] }

/-- The bitset produced by inter and union on two copies of bit13. -/
def bit13full : Bit :=
  { length := 13, size_in_bytes := 8, size_in_qwords := 1,
    is_Bit_T_allocated := true, bytes := [255, 31, 0, 0, 0, 0, 0, 0] }

theorem C6_padding_invariant_witness :
    PaddingZero (Bit_new 13).length (Bit_new 13).bytes
    ∧ PaddingZero bit13.length (Bit_bset bit13 3).bytes
    ∧ PaddingZero bit13.length (Bit_bclear bit13 3).bytes
    ∧ PaddingZero bit13.length (Bit_put bit13 12 1).1.bytes
    ∧ PaddingZero bit13.length (Bit_aset bit13 [0, 5, 12]).bytes
    ∧ PaddingZero bit13.length (Bit_aclear bit13 [0, 5, 12]).bytes
    ∧ PaddingZero bit13.length (Bit_set bit13 2 12).bytes
    ∧ PaddingZero bit13.length (Bit_clear bit13 2 12).bytes
    ∧ PaddingZero bit13.length (Bit_not bit13 2 12).bytes
    ∧ Bit_diff heap13 (some 0) (some 1) = .ok bit13zero
    ∧ PaddingZero bit13zero.length bit13zero.bytes
    ∧ Bit_inter heap13 (some 0) (some 1) = .ok bit13full
    ∧ PaddingZero bit13full.length bit13full.bytes
    ∧ Bit_minus heap13 (some 0) (some 1) = .ok bit13zero
    ∧ Bit_union heap13 (some 0) (some 1) = .ok bit13full := by
  have hp13 : PaddingZero bit13.length bit13.bytes :=
    paddingZero_of_upTo _ _ (by decide)
  have hwf13 : bit13.WF := by decide
  have hheap : ∀ n, (heap13 n).WF ∧ PaddingZero (heap13 n).length (heap13 n).bytes :=
    fun _ => ⟨hwf13, hp13⟩
  exact ⟨C6_padding_invariant.1 13,
    C6_padding_invariant.2.1 bit13 3 (by decide) hp13,
    C6_padding_invariant.2.2.1 bit13 3 hp13,
    C6_padding_invariant.2.2.2.1 bit13 12 1 (by decide) hp13,
    C6_padding_invariant.2.2.2.2.1 bit13 [0, 5, 12] (by decide) hp13,
    C6_padding_invariant.2.2.2.2.2.1 bit13 [0, 5, 12] hp13,
    C6_padding_invariant.2.2.2.2.2.2.1 bit13 2 12 (by decide) (by decide) hp13,
    C6_padding_invariant.2.2.2.2.2.2.2.1 bit13 2 12 hp13,
    C6_padding_invariant.2.2.2.2.2.2.2.2.1 bit13 2 12 (by decide) (by decide) hp13,
    rfl,
    C6_padding_invariant.2.2.2.2.2.2.2.2.2.1 heap13 (some 0) (some 1) bit13zero
      hheap rfl,
    rfl,
    C6_padding_invariant.2.2.2.2.2.2.2.2.2.2.1 heap13 (some 0) (some 1) bit13full
      hheap rfl,
    rfl,
    rfl⟩

/-! ## C9: extraction transfers the word-rounded storage size -/

theorem splice_zero (dst src : List Nat) :
    splice dst 0 src = src ++ dst.drop src.length := by
  simp [splice]

/-- C9: `Bit_extract` writes the full word-rounded storage — all
`8·⌈L/64⌉` bytes, padding bytes included — into the front of the caller's
buffer and returns that byte count (for `L = 100` that is 16 bytes, not
`⌈100/8⌉ = 13`); the per-slot byte size of a container is likewise
`8·⌈L/64⌉`, and `BitDB_extract_from` / `BitDB_replace_at` transfer exactly
that many bytes per slot. -/
theorem C9_extract_word_rounded (s : Bit) (buffer : List Nat) (hwf : s.WF)
    (db : BitDB) (i : Nat) (dbbuf : List Nat) (hdbwf : db.WF)
    (hi : i < db.nelem) :
    (Bit_extract s buffer).2 = 8 * ((s.length + 63) / 64)
    ∧ (Bit_extract s buffer).1
        = s.bytes ++ buffer.drop (8 * ((s.length + 63) / 64))
    ∧ db.size_in_bytes = 8 * ((db.length + 63) / 64)
    ∧ BitDB_extract_from db i dbbuf
        = .ok ((db.bytes.drop (i * db.size_in_bytes)).take db.size_in_bytes
            ++ dbbuf.drop db.size_in_bytes,
          8 * ((db.length + 63) / 64))
    ∧ ((db.bytes.drop (i * db.size_in_bytes)).take db.size_in_bytes).length
        = db.size_in_bytes
    ∧ BitDB_replace_at db i dbbuf
        = .ok { db with
            bytes := splice db.bytes (i * db.size_in_bytes)
              (dbbuf.take db.size_in_bytes) }
    ∧ (dbbuf.take db.size_in_bytes).length ≤ 8 * ((db.length + 63) / 64)
    ∧ 8 * ((100 + 63) / 64) = 16 ∧ (100 + 7) / 8 = 13 := by
  have hsib : s.size_in_bytes = 8 * ((s.length + 63) / 64) := by
    rw [hwf.2.1, hwf.1, nqwords_eq s.length hwf.2.2.2.2.2]
    ring
  have hdsib : db.size_in_bytes = 8 * ((db.length + 63) / 64) := by
    rw [hdbwf.2.1, hdbwf.1, nqwords_eq db.length hdbwf.2.2.2.2.2.1]
    ring
  have htake : s.bytes.take s.size_in_bytes = s.bytes := by
    rw [← hwf.2.2.1, List.take_length]
  have hXlen : ((db.bytes.drop (i * db.size_in_bytes)).take db.size_in_bytes).length
      = db.size_in_bytes := by
    rw [List.length_take, List.length_drop, hdbwf.2.2.1]
    have hmul : db.size_in_bytes * (i + 1) ≤ db.size_in_bytes * db.nelem :=
      Nat.mul_le_mul_left _ hi
    have hdist : db.size_in_bytes * (i + 1) = db.size_in_bytes * i + db.size_in_bytes := by
      ring
    have hcomm : db.size_in_bytes * i = i * db.size_in_bytes := Nat.mul_comm _ _
    omega
  refine ⟨hsib, ?_, hdsib, ?_, hXlen, ?_, ?_, by norm_num, by norm_num⟩
  · show splice buffer 0 (s.bytes.take s.size_in_bytes) = _
    rw [htake, splice_zero, hwf.2.2.1, hsib]
  · show (if i < db.nelem then _ else _) = _
    rw [if_pos hi, splice_zero, hXlen, ← hdsib]
  · show (if i < db.nelem then _ else _) = _
    rw [if_pos hi]
  · rw [List.length_take, ← hdsib]
    exact Nat.min_le_left _ _

theorem C9_extract_word_rounded_witness :
    bit13.WF ∧ dbA.WF ∧ 0 < dbA.nelem
    ∧ ((Bit_extract bit13 (List.replicate 16 7)).2
          = 8 * ((bit13.length + 63) / 64)
       ∧ (Bit_extract bit13 (List.replicate 16 7)).1
          = bit13.bytes ++ (List.replicate 16 7).drop (8 * ((bit13.length + 63) / 64))
       ∧ dbA.size_in_bytes = 8 * ((dbA.length + 63) / 64)
       ∧ BitDB_extract_from dbA 0 (List.replicate 16 7)
          = .ok ((dbA.bytes.drop (0 * dbA.size_in_bytes)).take dbA.size_in_bytes
              ++ (List.replicate 16 7).drop dbA.size_in_bytes,
            8 * ((dbA.length + 63) / 64))
       ∧ ((dbA.bytes.drop (0 * dbA.size_in_bytes)).take dbA.size_in_bytes).length
          = dbA.size_in_bytes
       ∧ BitDB_replace_at dbA 0 (List.replicate 16 7)
          = .ok { dbA with
              bytes := splice dbA.bytes (0 * dbA.size_in_bytes)
                ((List.replicate 16 7).take dbA.size_in_bytes) }
       ∧ ((List.replicate 16 7).take dbA.size_in_bytes).length
          ≤ 8 * ((dbA.length + 63) / 64)
       ∧ 8 * ((100 + 63) / 64) = 16 ∧ (100 + 7) / 8 = 13) :=
  ⟨by decide, by decide, by decide,
    C9_extract_word_rounded bit13 (List.replicate 16 7) (by decide) dbA 0
      (List.replicate 16 7) (by decide) (by decide)⟩

/-! ## C2: container slot layout -/

/-- C2 counterexample: the claimed slot byte size `⌈L/8⌉` disagrees with the
code for `L = 100`: a two-slot container of length 100 stores 32 bytes
(two word-rounded 16-byte slots), not `2·⌈100/8⌉ = 26`. -/
theorem C2_counterexample :
    (BitDB_new 100 2).bytes.length = 32
    ∧ (BitDB_new 100 2).size_in_bytes = 16
    ∧ 2 * ((100 + 7) / 8) = 26
    ∧ ¬((BitDB_new 100 2).bytes.length = 2 * ((100 + 7) / 8)) := by decide

/-- C2 (amended): the container stores `N·S` contiguous bytes where the slot
byte size is the word-rounded `S = 8·⌈L/64⌉` (not `⌈L/8⌉`), and every accessor
addresses slot i at byte offset `i·S`; an out-of-range index is a checked
error. -/
theorem C2_slot_layout (L N : Nat) (d : BitDB) (i j : Nat) (buf : List Nat)
    (b : Bit) (hL : L < INT_MAX_C) (hwf : d.WF) (hi : i < d.nelem)
    (hj : d.nelem ≤ j) (hb : b.length = d.length) :
    (BitDB_new L N).size_in_bytes = 8 * ((L + 63) / 64)
    ∧ (BitDB_new L N).bytes.length = 8 * ((L + 63) / 64) * N
    ∧ d.size_in_bytes = 8 * ((d.length + 63) / 64)
    ∧ d.bytes.length = d.size_in_bytes * d.nelem
    ∧ BitDB_clear_at d i
        = .ok { d with
            bytes := splice d.bytes (i * d.size_in_bytes)
              (List.replicate d.size_in_bytes 0) }
    ∧ BitDB_get_from d i
        = .ok { Bit_new d.length with
            bytes := splice (Bit_new d.length).bytes 0
              ((d.bytes.drop (i * d.size_in_bytes)).take d.size_in_bytes) }
    ∧ BitDB_put_at d i b
        = .ok { d with
            bytes := splice d.bytes (i * d.size_in_bytes)
              (b.bytes.take d.size_in_bytes) }
    ∧ BitDB_extract_from d i buf
        = .ok (splice buf 0
            ((d.bytes.drop (i * d.size_in_bytes)).take d.size_in_bytes),
          d.size_in_bytes)
    ∧ BitDB_replace_at d i buf
        = .ok { d with
            bytes := splice d.bytes (i * d.size_in_bytes)
              (buf.take d.size_in_bytes) }
    ∧ BitDB_extract_from d j buf
        = .error "assert(index >= 0 && index < set->nelem) failed" := by
  have hnq : nqwords L = (L + 63) / 64 := nqwords_eq L hL
  have hdsib : d.size_in_bytes = 8 * ((d.length + 63) / 64) := by
    rw [hwf.2.1, hwf.1, nqwords_eq d.length hwf.2.2.2.2.2.1]
    ring
  refine ⟨?_, ?_, hdsib, hwf.2.2.1, ?_, ?_, ?_, ?_, ?_, ?_⟩
  · show nqwords L * 8 = _
    rw [hnq]; ring
  · show (List.replicate (nqwords L * 8 * N) 0).length = _
    rw [List.length_replicate, hnq]; ring
  · show (if i < d.nelem then _ else _) = _
    rw [if_pos hi]
  · show (if i < d.nelem then _ else _) = _
    rw [if_pos hi]
  · show (if i < d.nelem then _ else _) = _
    rw [if_pos hi, if_pos hb]
  · show (if i < d.nelem then _ else _) = _
    rw [if_pos hi]
  · show (if i < d.nelem then _ else _) = _
    rw [if_pos hi]
  · show (if j < d.nelem then _ else _) = _
    rw [if_neg (by omega)]

theorem C2_slot_layout_witness :
    100 < INT_MAX_C ∧ (BitDB_new 100 2).WF ∧ 1 < (BitDB_new 100 2).nelem
    ∧ (BitDB_new 100 2).nelem ≤ 2
    ∧ (Bit_new 100).length = (BitDB_new 100 2).length
    ∧ (BitDB_new 100 2).size_in_bytes = 8 * ((100 + 63) / 64)
    ∧ BitDB_extract_from (BitDB_new 100 2) 1 (List.replicate 16 3)
        = .ok (splice (List.replicate 16 3) 0
            (((BitDB_new 100 2).bytes.drop
              (1 * (BitDB_new 100 2).size_in_bytes)).take
                (BitDB_new 100 2).size_in_bytes),
          (BitDB_new 100 2).size_in_bytes)
    ∧ BitDB_extract_from (BitDB_new 100 2) 2 (List.replicate 16 3)
        = .error "assert(index >= 0 && index < set->nelem) failed" := by
  have h := C2_slot_layout 100 2 (BitDB_new 100 2) 1 2 (List.replicate 16 3)
    (Bit_new 100) (by decide) (by decide) (by decide) (by decide) (by decide)
  exact ⟨by decide, by decide, by decide, by decide, by decide, h.1,
    h.2.2.2.2.2.2.2.1, h.2.2.2.2.2.2.2.2.2⟩

/-! ## C1: the allocating union/diff/minus variants call the wrong kernel -/

/-- C1: the allocating batched entry points for union, diff and minus call
the intersection store kernel (both on the CPU and on the GPU path), so they
return intersection counts instead of their own operator's counts.  On the
one-slot containers A = {0} and B = {1} (words 1 and 2) the store kernels
return union [2], diff [2], minus [1], inter [0] — matching
count_WWG of the word operation — while the allocating union, diff and
minus variants all return the intersection counts [0]. -/
theorem C1_allocating_variants_use_inter_kernel :
    BitDB_union_count_store_cpu dbA dbB [0] opts0 = .ok [2]
    ∧ BitDB_union_count_cpu dbA dbB opts0 = .ok [0]
    ∧ BitDB_diff_count_store_cpu dbA dbB [0] opts0 = .ok [2]
    ∧ BitDB_diff_count_cpu dbA dbB opts0 = .ok [0]
    ∧ BitDB_minus_count_store_cpu dbA dbB [0] opts0 = .ok [1]
    ∧ BitDB_minus_count_cpu dbA dbB opts0 = .ok [0]
    ∧ BitDB_inter_count_store_cpu dbA dbB [0] opts0 = .ok [0]
    ∧ BitDB_inter_count_cpu dbA dbB opts0 = .ok [0]
    ∧ BitDB_union_count_gpu dbA dbB opts0 st0
        = .ok ([0], { rc1st := 1, rc2nd := 1, rcCounts := 0 },
          [GpuEv.h2d1st, GpuEv.h2d2nd, GpuEv.h2dCounts, GpuEv.d2hCounts])
    ∧ BitDB_union_count_store_gpu dbA dbB [0] opts0 st0
        = .ok ([2], { rc1st := 1, rc2nd := 1, rcCounts := 0 },
          [GpuEv.h2d1st, GpuEv.h2d2nd, GpuEv.h2dCounts, GpuEv.d2hCounts])
    ∧ count_WWG (1 ||| 2) = 2 ∧ count_WWG (1 ^^^ 2) = 2
    ∧ count_WWG (1 &&& complement64 2) = 1 ∧ count_WWG (1 &&& 2) = 0 :=
  ⟨rfl, rfl, rfl, rfl, rfl, rfl, rfl, rfl, rfl, rfl, rfl, rfl, rfl, rfl⟩

/-! ## C10: GPU buffer residency is not controlled by the release flags alone -/

/-- C10: on the GPU path, a second operand that is device resident with
reference count 1 and no refresh requested gets a second target enter data,
raising its reference count to 2 without any transfer; the later
map(release) for release_2nd_operand only brings it back to 1, so the
buffer stays resident even though its release flag was set.  The counts
buffer is copied back and evicted by the unconditional exit data map(from)
even with release_counts unset.  Concretely, with both operands resident
(count 1), release flags set for both operands and clear for counts, the
call ends with the second operand still resident (count 1) while the first
operand (count 0) and the counts buffer were evicted. -/
theorem C10_gpu_residency_bug :
    (SETOP_INIT_GPU opts10 st10).1 = { rc1st := 1, rc2nd := 2, rcCounts := 1 }
    ∧ (SETOP_INIT_GPU opts10 st10).2 = [GpuEv.h2dCounts]
    ∧ BitDB_inter_count_store_gpu dbA dbB [7] opts10 st10
        = .ok ([0], { rc1st := 0, rc2nd := 1, rcCounts := 0 },
          [GpuEv.h2dCounts, GpuEv.d2hCounts])
    ∧ opts10.release_1st_operand = true
    ∧ opts10.release_2nd_operand = true
    ∧ opts10.release_counts = false
    ∧ st10.rc2nd = 1 :=
  ⟨rfl, rfl, rfl, rfl, rfl, rfl, rfl⟩

end BitC
